import Mathlib

/-!
# A shallow embedding of the `qoi` Go package (`qoi.go`, `ops.go`)

Bytes (`uint8`) are `Fin 256`, whose arithmetic wraps modulo 256 like Go's.
Values of type `int8` are integers; every `int8` operation of the source is
followed by an explicit `wrap8`.  Go's `int` coordinates are unbounded here:
they stay inside the image rectangle whenever the rectangle has a positive
width.  A `bufio.Reader` is the list of the bytes that remain to be read and a
`bufio.Writer` is the list of the bytes written so far.
-/

namespace qoi

/-! ## Machine integers -/

abbrev Byte := Fin 256

/-- Go conversion `int8(b)` of a `uint8`: the same bit pattern read as signed. -/
def int8 (b : Byte) : Int :=
  if b.val < 128 then (b.val : Int) else (b.val : Int) - 256

/-- Result of an `int8` operation: the exact integer wrapped into `[-128, 127]`. -/
def wrap8 (z : Int) : Int := (z + 128) % 256 - 128

/-- Go conversion `uint8(z)` / `byte(z)` of a signed integer: keep the low 8 bits. -/
def uint8 (z : Int) : Byte := ⟨(z % 256).toNat, by omega⟩

/-! ## Colours, rectangles, images -/

/-- The type `color.NRGBA`. -/
structure NRGBA where
  R : Byte
  G : Byte
  B : Byte
  A : Byte
deriving DecidableEq, Repr

/-- The type `image.Point`. -/
structure Point where
  X : Int
  Y : Int
deriving DecidableEq, Repr

/-- The type `image.Rectangle`. -/
structure Rectangle where
  Min : Point
  Max : Point
deriving DecidableEq, Repr

def Rectangle.Dx (r : Rectangle) : Int := r.Max.X - r.Min.X

def Rectangle.Dy (r : Rectangle) : Int := r.Max.Y - r.Min.Y

/-- An `image.Image` as the encoder sees it: its bounds, and the colour
`color.NRGBAModel.Convert(m.At(x, y))` at every point. -/
structure Image where
  Bounds : Rectangle
  At : Int → Int → NRGBA

/-- The type `*image.NRGBA` with rectangle `image.Rect(0, 0, W, H)`: the pixel
buffer `Pix` holds four bytes per pixel, row after row. -/
structure NRGBAImage where
  Pix : List Byte
  Stride : Nat
  W : Nat
  H : Nat
deriving DecidableEq, Repr

/-- The call `image.NewNRGBA(image.Rect(0, 0, w, h))`.  The buffer is a list of any
length: the limits of allocation (memory, and the library's panic on a buffer length
that does not fit an `int`) are outside the model. -/
def NewNRGBA (w h : Nat) : NRGBAImage :=
  { Pix := List.replicate (4 * w * h) 0, Stride := 4 * w, W := w, H := h }

def NRGBAImage.PixOffset (img : NRGBAImage) (x y : Nat) : Nat :=
  y * img.Stride + x * 4

/-- The four stores `s[0] = c.R; s[1] = c.G; s[2] = c.B; s[3] = c.A` into
`img.Pix[j : j+4]`. -/
def NRGBAImage.store (img : NRGBAImage) (j : Nat) (c : NRGBA) : NRGBAImage :=
  { img with Pix := (((img.Pix.set j c.R).set (j + 1) c.G).set (j + 2) c.B).set (j + 3) c.A }

/-- The method `(*image.NRGBA).SetNRGBA`: a store guarded by `Point.In(Rect)`. -/
def NRGBAImage.SetNRGBA (img : NRGBAImage) (x y : Nat) (c : NRGBA) : NRGBAImage :=
  if x < img.W ∧ y < img.H then img.store (img.PixOffset x y) c else img

/-- The method `(*image.NRGBA).NRGBAAt`: the zero colour outside the rectangle. -/
def NRGBAImage.NRGBAAt (img : NRGBAImage) (x y : Nat) : NRGBA :=
  if x < img.W ∧ y < img.H then
    let j := img.PixOffset x y
    { R := img.Pix.getD j 0, G := img.Pix.getD (j + 1) 0,
      B := img.Pix.getD (j + 2) 0, A := img.Pix.getD (j + 3) 0 }
  else { R := 0, G := 0, B := 0, A := 0 }

/-! ## Outcomes -/

/-- Run-time panics of the Go code. -/
inductive Panic where
  | nilDereference
  | divideByZero
  | indexOutOfRange
deriving DecidableEq, Repr

/-- The errors `io.EOF` and `io.ErrUnexpectedEOF`. -/
inductive IOError where
  | EOF
  | ErrUnexpectedEOF
deriving DecidableEq, Repr

/-- The errors `Decode` and `DecodeConfig` return. -/
inductive DecodeError where
  | header (e : IOError)
  | badMagic (got : List Byte)
  | chunkAt (x y : Nat) (e : IOError)
  | readingEndMarker (e : IOError)
  | badEndMarker (got : List Byte)
deriving DecidableEq, Repr

/-- The error `Encode` returns. -/
inductive EncodeError where
  | imageTooLarge
deriving DecidableEq, Repr

/-- Outcome of a call: a value, a returned error, a panic, or a loop that was
still running when the fuel ran out. -/
inductive Result (ε α : Type) where
  | ok (a : α)
  | error (e : ε)
  | panic (p : Panic)
  | outOfFuel
deriving DecidableEq, Repr

/-! ## Constants -/

/-- The constant `magic = "qoif"`. -/
def magic : List Byte := [0x71, 0x6f, 0x69, 0x66]

/-- The constant `endMarker`. -/
def endMarker : List Byte := [0, 0, 0, 0, 0, 0, 0, 1]

def opTagRGB : Byte := 0b11111110
def opTagRGBA : Byte := 0b11111111
def opTagIndex : Byte := 0b00000000
def opTagDiff : Byte := 0b01000000
def opTagLuma : Byte := 0b10000000
def opTagRun : Byte := 0b11000000

/-! ## Byte streams -/

/-- The method `(*bufio.Reader).ReadByte`. -/
def ReadByte : List Byte → Except IOError (Byte × List Byte)
  | [] => .error .EOF
  | b :: rest => .ok (b, rest)

/-- The function `io.ReadFull` on a buffer of `n` bytes. -/
def ReadFull (r : List Byte) (n : Nat) : Except IOError (List Byte × List Byte) :=
  if n ≤ r.length then .ok (r.take n, r.drop n)
  else if r.length = 0 then .error .EOF
  else .error .ErrUnexpectedEOF

/-- Big-endian bytes of a `uint32`. -/
def putUint32 (n : Nat) : List Byte :=
  [Fin.ofNat (n / 2 ^ 24), Fin.ofNat (n / 2 ^ 16), Fin.ofNat (n / 2 ^ 8), Fin.ofNat n]

/-- Big-endian `uint32` held in four bytes. -/
def getUint32 (b0 b1 b2 b3 : Byte) : Nat :=
  b0.val * 2 ^ 24 + b1.val * 2 ^ 16 + b2.val * 2 ^ 8 + b3.val

/-! ## The colour cache -/

/-- The type `colorCache = [64]color.NRGBA`. -/
abbrev colorCache := Fin 64 → NRGBA

/-- The value `new(colorCache)`: every slot is the zero colour. -/
def colorCache.new : colorCache := fun _ => { R := 0, G := 0, B := 0, A := 0 }

/-- The slot index `(c.R*3 + c.G*5 + c.B*7 + c.A*11) % 64`, computed in `uint8`
arithmetic; it is below 64, so indexing the array with it never panics. -/
def colorCache.idx (c : NRGBA) : Fin 64 :=
  ⟨((c.R * 3 + c.G * 5 + c.B * 7 + c.A * 11) % 64 : Byte).val,
    Nat.lt_of_le_of_lt (Fin.mod_val _ 64).le (Nat.mod_lt _ (by decide))⟩

def colorCache.add (cc : colorCache) (c : NRGBA) : colorCache :=
  let idx := colorCache.idx c
  Function.update cc idx c

def colorCache.get (cc : colorCache) (c : NRGBA) : Int :=
  let idx := colorCache.idx c
  if cc idx ≠ c then -1 else (idx.val : Int)

/-! ## The image reader -/

/-- The type `imageReader`; `c = none` is the nil pointer. -/
structure imageReader where
  c : Option NRGBA
  p : Point
  b : Rectangle
  m : Image

def newImageReader (m : Image) : imageReader :=
  let b := m.Bounds
  let p := b.Min
  let c := m.At p.X p.Y
  { m := m, b := b, p := p, c := some c }

def imageReader.next (r : imageReader) : imageReader :=
  let p1 : Point := { X := r.p.X + 1, Y := r.p.Y }
  let p2 : Point := if p1.X = r.b.Max.X then { X := r.b.Min.X, Y := p1.Y + 1 } else p1
  if p2.Y ≥ r.b.Max.Y then { r with p := p2, c := none }
  else { r with p := p2, c := some (r.m.At p2.X p2.Y) }

/-! ## Chunks -/

/-- The six implementations of the interface `chunk`.  `opRGB` and `opRGBA`
are `color.NRGBA` values, `opIndex` and `opRun` are `uint8` values, the fields
of `opDiff` and `opLuma` are `int8` values. -/
inductive chunk where
  | opRGB (c : NRGBA)
  | opRGBA (c : NRGBA)
  | opIndex (i : Byte)
  | opDiff (dr dg db : Int)
  | opLuma (dg drdg dbdg : Int)
  | opRun (n : Byte)
deriving DecidableEq, Repr

/-! ### Constructors used by the encoder

Each returns the chunk (`none` for a nil chunk) and the reader as the call
leaves it; dereferencing a nil `r.c` is the panic `nilDereference`. -/

def newOpRGB (r : imageReader) (previous : NRGBA) : Except Panic (Option chunk × imageReader) :=
  match r.c with
  | none => .error .nilDereference
  | some c =>
    if c.A ≠ previous.A then .ok (none, r)
    else .ok (some (.opRGB { R := c.R, G := c.G, B := c.B, A := 0 }), r.next)

def newOpRGBA (r : imageReader) : Except Panic (Option chunk × imageReader) :=
  match r.c with
  | none => .error .nilDereference
  | some c => .ok (some (.opRGBA c), r.next)

def newOpIndex (r : imageReader) (cc : colorCache) : Except Panic (Option chunk × imageReader) :=
  match r.c with
  | none => .error .nilDereference
  | some c =>
    let idx := cc.get c
    if idx < 0 then .ok (none, r)
    else .ok (some (.opIndex (uint8 idx)), r.next)

def newOpDiff (r : imageReader) (previous : NRGBA) : Except Panic (Option chunk × imageReader) :=
  match r.c with
  | none => .error .nilDereference
  | some c =>
    if c.A ≠ previous.A then .ok (none, r)
    else
      let dr := int8 (c.R - previous.R)
      let dg := int8 (c.G - previous.G)
      let db := int8 (c.B - previous.B)
      if dr < -2 ∨ dr > 1 then .ok (none, r)
      else if dg < -2 ∨ dg > 1 then .ok (none, r)
      else if db < -2 ∨ db > 1 then .ok (none, r)
      else .ok (some (.opDiff dr dg db), r.next)

def newOpLuma (r : imageReader) (previous : NRGBA) : Except Panic (Option chunk × imageReader) :=
  match r.c with
  | none => .error .nilDereference
  | some c =>
    if c.A ≠ previous.A then .ok (none, r)
    else
      let dg := int8 (c.G - previous.G)
      let drdg := wrap8 (int8 (c.R - previous.R) - dg)
      let dbdg := wrap8 (int8 (c.B - previous.B) - dg)
      if dg < -32 ∨ dg > 31 then .ok (none, r)
      else if drdg < -8 ∨ drdg > 7 then .ok (none, r)
      else if dbdg < -8 ∨ dbdg > 7 then .ok (none, r)
      else .ok (some (.opLuma dg drdg dbdg), r.next)

/-- The loop `for r.c != nil && *r.c == previous && run < 62 { run++; r.next() }`.
Started with `run = 0` and 62 units of fuel it stops on its own condition: when
the fuel is spent `run` is 62. -/
def newOpRun.loop (previous : NRGBA) : Nat → imageReader → Byte → imageReader × Byte
  | 0, r, run => (r, run)
  | fuel + 1, r, run =>
    match r.c with
    | none => (r, run)
    | some c =>
      if c = previous ∧ run < 62 then newOpRun.loop previous fuel r.next (run + 1)
      else (r, run)

def newOpRun (r : imageReader) (previous : NRGBA) : Option chunk × imageReader :=
  let (r1, run) := newOpRun.loop previous 62 r 0
  if run = 0 then (none, r1) else (some (.opRun run), r1)

/-! ### Wire format: `encode` -/

def opRGB.encode (c : NRGBA) : List Byte := [opTagRGB, c.R, c.G, c.B]

def opRGBA.encode (c : NRGBA) : List Byte := [opTagRGBA, c.R, c.G, c.B, c.A]

def opIndex.encode (op : Byte) : List Byte := [opTagIndex ||| op]

def opDiff.encode (dr dg db : Int) : List Byte :=
  [opTagDiff ||| (uint8 (wrap8 (dr + 2)) <<< 4) ||| (uint8 (wrap8 (dg + 2)) <<< 2)
    ||| uint8 (wrap8 (db + 2))]

def opLuma.encode (dg drdg dbdg : Int) : List Byte :=
  [opTagLuma ||| uint8 (wrap8 (dg + 32)),
   (uint8 (wrap8 (drdg + 8)) <<< 4) ||| uint8 (wrap8 (dbdg + 8))]

def opRun.encode (op : Byte) : List Byte := [opTagRun ||| (op - 1)]

def chunk.encode : chunk → List Byte
  | .opRGB c => opRGB.encode c
  | .opRGBA c => opRGBA.encode c
  | .opIndex i => opIndex.encode i
  | .opDiff dr dg db => opDiff.encode dr dg db
  | .opLuma dg drdg dbdg => opLuma.encode dg drdg dbdg
  | .opRun n => opRun.encode n

/-! ### Wire format: `decode`

Each returns the chunk and the bytes left in the reader, or the read error. -/

def opRGB.decode (r : List Byte) : Except IOError (chunk × List Byte) :=
  match ReadFull r 4 with
  | .error e => .error e
  | .ok (buf, r1) =>
    .ok (.opRGB { R := buf.getD 1 0, G := buf.getD 2 0, B := buf.getD 3 0, A := 0 }, r1)

def opRGBA.decode (r : List Byte) : Except IOError (chunk × List Byte) :=
  match ReadFull r 5 with
  | .error e => .error e
  | .ok (buf, r1) =>
    .ok (.opRGBA { R := buf.getD 1 0, G := buf.getD 2 0, B := buf.getD 3 0,
                   A := buf.getD 4 0 }, r1)

def opIndex.decode (r : List Byte) : Except IOError (chunk × List Byte) :=
  match ReadByte r with
  | .error e => .error e
  | .ok (buf, r1) => .ok (.opIndex (buf &&& 0b00111111), r1)

def opDiff.decode (r : List Byte) : Except IOError (chunk × List Byte) :=
  match ReadByte r with
  | .error e => .error e
  | .ok (buf, r1) =>
    .ok (.opDiff (wrap8 (int8 ((buf &&& 0b00110000) >>> 4) - 2))
                 (wrap8 (int8 ((buf &&& 0b00001100) >>> 2) - 2))
                 (wrap8 (int8 ((buf &&& 0b00000011) >>> 0) - 2)), r1)

def opLuma.decode (r : List Byte) : Except IOError (chunk × List Byte) :=
  match ReadFull r 2 with
  | .error e => .error e
  | .ok (buf, r1) =>
    .ok (.opLuma (wrap8 (int8 (buf.getD 0 0 &&& 0b00111111) - 32))
                 (wrap8 (int8 ((buf.getD 1 0 &&& 0b11110000) >>> 4) - 8))
                 (wrap8 (int8 ((buf.getD 1 0 &&& 0b00001111) >>> 0) - 8)), r1)

def opRun.decode (r : List Byte) : Except IOError (chunk × List Byte) :=
  match ReadByte r with
  | .error e => .error e
  | .ok (buf, r1) => .ok (.opRun ((buf &&& 0b00111111) + 1), r1)

/-- The function `decodeChunk`: peek one byte, pick the variant, decode it. -/
def decodeChunk (r : List Byte) : Except IOError (chunk × List Byte) :=
  match ReadByte r with
  | .error e => .error e
  | .ok (b, _) =>
    if b = opTagRGB then opRGB.decode r
    else if b = opTagRGBA then opRGBA.decode r
    else if b &&& 0b11000000 = opTagIndex then opIndex.decode r
    else if b &&& 0b11000000 = opTagDiff then opDiff.decode r
    else if b &&& 0b11000000 = opTagLuma then opLuma.decode r
    else opRun.decode r

/-! ### Pixel reconstruction: `set`

Each returns the count `n`, the colour `c` and the image after the stores. -/

def opRGBA.set (op : NRGBA) (img : NRGBAImage) (x y : Nat) : Nat × NRGBA × NRGBAImage :=
  (1, op, img.SetNRGBA x y op)

def opRGB.set (op : NRGBA) (img : NRGBAImage) (x y : Nat) (previous : NRGBA) :
    Nat × NRGBA × NRGBAImage :=
  opRGBA.set { op with A := previous.A } img x y

def opIndex.set (op : Byte) (img : NRGBAImage) (x y : Nat) (cc : colorCache) :
    Except Panic (Nat × NRGBA × NRGBAImage) :=
  if h : op.val < 64 then
    let c := cc ⟨op.val, h⟩
    .ok (1, c, img.SetNRGBA x y c)
  else .error .indexOutOfRange

def opDiff.set (dr dg db : Int) (img : NRGBAImage) (x y : Nat) (previous : NRGBA) :
    Nat × NRGBA × NRGBAImage :=
  let c : NRGBA :=
    { R := uint8 (wrap8 (int8 previous.R + dr))
      G := uint8 (wrap8 (int8 previous.G + dg))
      B := uint8 (wrap8 (int8 previous.B + db))
      A := previous.A }
  (1, c, img.SetNRGBA x y c)

def opLuma.set (dg drdg dbdg : Int) (img : NRGBAImage) (x y : Nat) (previous : NRGBA) :
    Nat × NRGBA × NRGBAImage :=
  let c : NRGBA :=
    { R := uint8 (wrap8 (wrap8 (int8 previous.R + dg) + drdg))
      G := uint8 (wrap8 (int8 previous.G + dg))
      B := uint8 (wrap8 (wrap8 (int8 previous.B + dg) + dbdg))
      A := previous.A }
  (1, c, img.SetNRGBA x y c)

/-- The loop `for i := 1; i <= n; i++` of `opRun.set`, with `rem = n + 1 - i`
iterations to go: the early `return i, c` when the store would leave `img.Pix`,
and `return` of `n` when the loop ends. -/
def opRun.set.loop (n y : Nat) (c : NRGBA) : Nat → Nat → Nat → NRGBAImage → Nat × NRGBAImage
  | 0, _, _, img => (n, img)
  | rem + 1, i, x, img =>
    let j := img.PixOffset x y
    if j + 4 > img.Pix.length then (i, img)
    else opRun.set.loop n y c rem (i + 1) (x + 1) (img.store j c)

def opRun.set (op : Byte) (img : NRGBAImage) (x y : Nat) (previous : NRGBA) :
    Nat × NRGBA × NRGBAImage :=
  let n := op.val
  let c := previous
  let (n1, img1) := opRun.set.loop n y c n 1 x img
  (n1, c, img1)

def chunk.set (op : chunk) (img : NRGBAImage) (x y : Nat) (cc : colorCache) (previous : NRGBA) :
    Except Panic (Nat × NRGBA × NRGBAImage) :=
  match op with
  | .opRGB c => .ok (opRGB.set c img x y previous)
  | .opRGBA c => .ok (opRGBA.set c img x y)
  | .opIndex i => opIndex.set i img x y cc
  | .opDiff dr dg db => .ok (opDiff.set dr dg db img x y previous)
  | .opLuma dg drdg dbdg => .ok (opLuma.set dg drdg dbdg img x y previous)
  | .opRun n => .ok (opRun.set n img x y previous)

/-! ## The encoder -/

/-- The chunk `encodeChunk` selects and the reader as it leaves it; the bytes it
writes are `op.encode` of that chunk. -/
def encodeChunk (r : imageReader) (cc : colorCache) (previous : NRGBA) :
    Except Panic (chunk × imageReader) :=
  match newOpRun r previous with
  | (some op, r1) => .ok (op, r1)
  | (none, r1) =>
    match newOpIndex r1 cc with
    | .error e => .error e
    | .ok (some op, r2) => .ok (op, r2)
    | .ok (none, r2) =>
      match newOpDiff r2 previous with
      | .error e => .error e
      | .ok (some op, r3) => .ok (op, r3)
      | .ok (none, r3) =>
        match newOpLuma r3 previous with
        | .error e => .error e
        | .ok (some op, r4) => .ok (op, r4)
        | .ok (none, r4) =>
          match newOpRGB r4 previous with
          | .error e => .error e
          | .ok (some op, r5) => .ok (op, r5)
          | .ok (none, r5) =>
            match newOpRGBA r5 with
            | .error e => .error e
            | .ok (some op, r6) => .ok (op, r6)
            | .ok (none, _) => .error .nilDereference

/-- The loop `for r.c != nil { ... }` of `Encode`: the chunks it writes, in
order.  One unit of fuel is one iteration. -/
def Encode.loop : Nat → imageReader → colorCache → NRGBA → Result EncodeError (List chunk)
  | fuel, r, cc, previous =>
    match r.c with
    | none => .ok []
    | some seen =>
      match fuel with
      | 0 => .outOfFuel
      | fuel1 + 1 =>
        match encodeChunk r cc previous with
        | .error e => .panic e
        | .ok (op, r1) =>
          match Encode.loop fuel1 r1 (cc.add seen) seen with
          | .ok ops => .ok (op :: ops)
          | .error e => .error e
          | .panic e => .panic e
          | .outOfFuel => .outOfFuel

/-- The 14 bytes `binary.Write(bw, binary.BigEndian, hdr)` writes. -/
def header.bytes (Width Height : Nat) (Channels Colorspace : Byte) : List Byte :=
  magic ++ putUint32 Width ++ putUint32 Height ++ [Channels, Colorspace]

/-- The function `Encode`: the bytes the writer holds at the final flush. -/
def Encode (fuel : Nat) (m : Image) : Result EncodeError (List Byte) :=
  let b := m.Bounds
  if b.Dx > 4294967295 ∨ b.Dy > 4294967295 then .error .imageTooLarge
  else
    let hdr := header.bytes (b.Dx % 4294967296).toNat (b.Dy % 4294967296).toNat 4 0
    match Encode.loop fuel (newImageReader m) colorCache.new { R := 0, G := 0, B := 0, A := 255 } with
    | .ok ops => .ok (hdr ++ ops.flatMap chunk.encode ++ endMarker)
    | .error e => .error e
    | .panic e => .panic e
    | .outOfFuel => .outOfFuel

/-! ## The decoder -/

/-- The fields of `image.Config` the decoder uses. -/
structure Config where
  Width : Nat
  Height : Nat
deriving DecidableEq, Repr

/-- The function `DecodeConfig`: the configuration and the bytes left to read. -/
def DecodeConfig (r : List Byte) : Except DecodeError (Config × List Byte) :=
  match ReadFull r 14 with
  | .error e => .error (.header e)
  | .ok (hdr, r1) =>
    if hdr.take 4 ≠ magic then .error (.badMagic (hdr.take 4))
    else
      .ok ({ Width := getUint32 (hdr.getD 4 0) (hdr.getD 5 0) (hdr.getD 6 0) (hdr.getD 7 0)
             Height := getUint32 (hdr.getD 8 0) (hdr.getD 9 0) (hdr.getD 10 0) (hdr.getD 11 0) },
           r1)

/-- The loop `for y < cfg.Height { ... }` of `Decode`: the image and the bytes
left when it ends.  One unit of fuel is one iteration. -/
def Decode.loop (cfg : Config) : Nat → List Byte → NRGBAImage → colorCache → NRGBA → Nat → Nat →
    Result DecodeError (NRGBAImage × List Byte)
  | fuel, b, img, cc, previous, x, y =>
    if y < cfg.Height then
      match fuel with
      | 0 => .outOfFuel
      | fuel1 + 1 =>
        match decodeChunk b with
        | .error e => .error (.chunkAt x y e)
        | .ok (c, b1) =>
          match c.set img x y cc previous with
          | .error e => .panic e
          | .ok (n, previous1, img1) =>
            let cc1 := cc.add previous1
            if cfg.Width = 0 then .panic .divideByZero
            else Decode.loop cfg fuel1 b1 img1 cc1 previous1
                   ((x + n) % cfg.Width) (y + (x + n) / cfg.Width)
    else .ok (img, b)

/-- The function `Decode`.  Every iteration of its loop reads at least one
byte, so the loop is given one unit of fuel per byte, and one more.  The local
slice `endMarker` hides the package constant of that name, as in the source. -/
def Decode (r : List Byte) : Result DecodeError NRGBAImage :=
  match DecodeConfig r with
  | .error e => .error e
  | .ok (cfg, b) =>
    let img := NewNRGBA cfg.Width cfg.Height
    match Decode.loop cfg (b.length + 1) b img colorCache.new { R := 0, G := 0, B := 0, A := 255 }
        0 0 with
    | .error e => .error e
    | .panic e => .panic e
    | .outOfFuel => .outOfFuel
    | .ok (img1, b1) =>
      match ReadFull b1 8 with
      | .error e => .error (.readingEndMarker e)
      | .ok (endMarker, _) =>
        if endMarker ≠ endMarker then .error (.badEndMarker endMarker)
        else .ok img1

/-! ## Auxiliary definitions used in the statements and proofs -/

/-- Field ranges of a chunk as the wire format can carry them. -/
def chunk.InRange : chunk → Prop
  | .opRGB c => c.A = 0
  | .opRGBA _ => True
  | .opIndex i => i.val < 64
  | .opDiff dr dg db => (-2 ≤ dr ∧ dr ≤ 1) ∧ (-2 ≤ dg ∧ dg ≤ 1) ∧ (-2 ≤ db ∧ db ≤ 1)
  | .opLuma dg drdg dbdg => (-32 ≤ dg ∧ dg ≤ 31) ∧ (-8 ≤ drdg ∧ drdg ≤ 7) ∧ (-8 ≤ dbdg ∧ dbdg ≤ 7)
  | .opRun n => 1 ≤ n.val ∧ n.val ≤ 62

/-- Width of the image rectangle, as a natural number. -/
def Image.W (m : Image) : Nat := m.Bounds.Dx.toNat

/-- Height of the image rectangle, as a natural number. -/
def Image.H (m : Image) : Nat := m.Bounds.Dy.toNat

/-- The colour of the `k`-th pixel of the image in row-major order. -/
def Image.pix (m : Image) (k : Nat) : NRGBA :=
  m.At (m.Bounds.Min.X + ((k % m.W : Nat) : Int)) (m.Bounds.Min.Y + ((k / m.W : Nat) : Int))

/-- The pixels of the image, row after row. -/
def Image.pixels (m : Image) : List NRGBA :=
  (List.range (m.W * m.H)).map m.pix

/-- The reader of `m` that stands on the `k`-th pixel in row-major order. -/
def readerAt (m : Image) (k : Nat) : imageReader :=
  { c := if k < m.W * m.H then some (m.pix k) else none
    p := { X := m.Bounds.Min.X + ((k % m.W : Nat) : Int), Y := m.Bounds.Min.Y + ((k / m.W : Nat) : Int) }
    b := m.Bounds
    m := m }

/-- The reader `r` of `m` has exactly the pixels `px` left to deliver. -/
def Reads (m : Image) (r : imageReader) (px : List NRGBA) : Prop :=
  ∃ k, k ≤ m.W * m.H ∧ r = readerAt m k ∧ px = m.pixels.drop k

/-- Number of leading pixels of the list equal to `previous`, counted up to `cap`. -/
def runLength (previous : NRGBA) : Nat → List NRGBA → Nat
  | 0, _ => 0
  | _ + 1, [] => 0
  | cap + 1, c :: rest => if c = previous then runLength previous cap rest + 1 else 0

/-- The chunk `encodeChunk` selects for the current pixel `c` when the run loop
has consumed `n` pixels, written without the reader. -/
def pickChunk (c : NRGBA) (n : Nat) (cc : colorCache) (previous : NRGBA) : chunk :=
  if n ≠ 0 then .opRun (Fin.ofNat n)
  else if cc (colorCache.idx c) = c then .opIndex (uint8 ((colorCache.idx c).val : Int))
  else if c.A = previous.A ∧
      (-2 ≤ int8 (c.R - previous.R) ∧ int8 (c.R - previous.R) ≤ 1) ∧
      (-2 ≤ int8 (c.G - previous.G) ∧ int8 (c.G - previous.G) ≤ 1) ∧
      (-2 ≤ int8 (c.B - previous.B) ∧ int8 (c.B - previous.B) ≤ 1) then
    .opDiff (int8 (c.R - previous.R)) (int8 (c.G - previous.G)) (int8 (c.B - previous.B))
  else if c.A = previous.A ∧
      (-32 ≤ int8 (c.G - previous.G) ∧ int8 (c.G - previous.G) ≤ 31) ∧
      (-8 ≤ wrap8 (int8 (c.R - previous.R) - int8 (c.G - previous.G)) ∧
        wrap8 (int8 (c.R - previous.R) - int8 (c.G - previous.G)) ≤ 7) ∧
      (-8 ≤ wrap8 (int8 (c.B - previous.B) - int8 (c.G - previous.G)) ∧
        wrap8 (int8 (c.B - previous.B) - int8 (c.G - previous.G)) ≤ 7) then
    .opLuma (int8 (c.G - previous.G))
      (wrap8 (int8 (c.R - previous.R) - int8 (c.G - previous.G)))
      (wrap8 (int8 (c.B - previous.B) - int8 (c.G - previous.G)))
  else if c.A = previous.A then .opRGB { R := c.R, G := c.G, B := c.B, A := 0 }
  else .opRGBA c

/-- The colour held by the `i`-th group of four bytes of the pixel buffer. -/
def NRGBAImage.pixelAt (img : NRGBAImage) (i : Nat) : NRGBA :=
  { R := img.Pix.getD (4 * i) 0, G := img.Pix.getD (4 * i + 1) 0,
    B := img.Pix.getD (4 * i + 2) 0, A := img.Pix.getD (4 * i + 3) 0 }

/-- The image has the shape `NewNRGBA w h` gives it. -/
def NRGBAImage.Shaped (img : NRGBAImage) (w h : Nat) : Prop :=
  img.W = w ∧ img.H = h ∧ img.Stride = 4 * w ∧ img.Pix.length = 4 * (w * h)

/-- The image after `n` stores of `c` into the groups `k, k+1, ..` of the buffer. -/
def NRGBAImage.fill (img : NRGBAImage) (c : NRGBA) : Nat → Nat → NRGBAImage
  | 0, _ => img
  | n + 1, k => NRGBAImage.fill (img.store (4 * k) c) c n (k + 1)

/-- A 3 x 2 image with distinct colours, used to instantiate the theorems. -/
def sampleImage : Image :=
  { Bounds := { Min := { X := 0, Y := 0 }, Max := { X := 3, Y := 2 } }
    At := fun x y => { R := Fin.ofNat (x.toNat * 40), G := Fin.ofNat (y.toNat * 90), B := 7,
                       A := if x = 1 then 128 else 255 } }

/-- The chunks the encoder loop writes for the pixels `px`, written without the
reader; `bound` is any number of at least `px.length`. -/
def pickList : Nat → List NRGBA → colorCache → NRGBA → List chunk
  | 0, _, _, _ => []
  | _ + 1, [], _, _ => []
  | bound + 1, c :: rest, cc, previous =>
    pickChunk c (runLength previous 62 (c :: rest)) cc previous ::
      pickList bound ((c :: rest).drop (max (runLength previous 62 (c :: rest)) 1)) (cc.add c) c

/-- A 63 x 1 image whose pixels all are `(0, 0, 0, 255)`. -/
def run63Image : Image :=
  { Bounds := { Min := { X := 0, Y := 0 }, Max := { X := 63, Y := 1 } }
    At := fun _ _ => { R := 0, G := 0, B := 0, A := 255 } }

/-- The delta of one channel as the format words it: the difference modulo 256,
read as a signed 8-bit integer. -/
def sdelta (cur prev : Byte) : Int :=
  if ((cur.val : Int) - (prev.val : Int)) % 256 < 128 then
    ((cur.val : Int) - (prev.val : Int)) % 256
  else ((cur.val : Int) - (prev.val : Int)) % 256 - 256

/-! ## The reference encoder of the specification

Written from the words of the specification (data model and the priority table
of the chunk model), not from the code.  Bytes are natural numbers here and the
bit layouts are spelled out arithmetically. -/

/-- The hash of a pixel: `(R*3 + G*5 + B*7 + A*11) mod 256`. -/
def Spec.hash (p : NRGBA) : Nat :=
  (p.R.val * 3 + p.G.val * 5 + p.B.val * 7 + p.A.val * 11) % 256

/-- The colour cache: 64 slots, addressed by `hash mod 64`. -/
abbrev Spec.Cache := Nat → NRGBA

/-- All slots start as the zero pixel. -/
def Spec.Cache.init : Spec.Cache := fun _ => { R := 0, G := 0, B := 0, A := 0 }

/-- Unconditional overwrite of the slot of the pixel. -/
def Spec.Cache.insert (t : Spec.Cache) (p : NRGBA) : Spec.Cache :=
  fun i => if i = Spec.hash p % 64 then p else t i

/-- The slot index on an exact match, otherwise a miss. -/
def Spec.Cache.lookup (t : Spec.Cache) (p : NRGBA) : Option Nat :=
  if t (Spec.hash p % 64) = p then some (Spec.hash p % 64) else none

/-- Applicability of Diff: alpha unchanged and each delta in `[-2, 1]`. -/
def Spec.diffOk (p previous : NRGBA) : Prop :=
  p.A = previous.A ∧
    (-2 ≤ sdelta p.R previous.R ∧ sdelta p.R previous.R ≤ 1) ∧
    (-2 ≤ sdelta p.G previous.G ∧ sdelta p.G previous.G ≤ 1) ∧
    (-2 ≤ sdelta p.B previous.B ∧ sdelta p.B previous.B ≤ 1)

instance (p previous : NRGBA) : Decidable (Spec.diffOk p previous) := by
  show Decidable (_ ∧ _); exact inferInstance

/-- Applicability of Luma: alpha unchanged, `dG` in `[-32, 31]`, `dR - dG` and
`dB - dG` in `[-8, 7]`. -/
def Spec.lumaOk (p previous : NRGBA) : Prop :=
  p.A = previous.A ∧
    (-32 ≤ sdelta p.G previous.G ∧ sdelta p.G previous.G ≤ 31) ∧
    (-8 ≤ sdelta p.R previous.R - sdelta p.G previous.G ∧
      sdelta p.R previous.R - sdelta p.G previous.G ≤ 7) ∧
    (-8 ≤ sdelta p.B previous.B - sdelta p.G previous.G ∧
      sdelta p.B previous.B - sdelta p.G previous.G ≤ 7)

instance (p previous : NRGBA) : Decidable (Spec.lumaOk p previous) := by
  show Decidable (_ ∧ _); exact inferInstance

/-- The bytes of the first applicable variant, in the order Run, Index, Diff, Luma,
RGB, RGBA, for the pixel `p` at the head of the pixels `p :: rest` still to encode. -/
def Spec.chunkBytes (p : NRGBA) (rest : List NRGBA) (t : Spec.Cache) (previous : NRGBA) :
    List Nat :=
  if p = previous then
    [192 + (runLength previous 62 (p :: rest) - 1)]
  else
    match t.lookup p with
    | some i => [i]
    | none =>
      if Spec.diffOk p previous then
        [64 + ((sdelta p.R previous.R + 2) * 16 + (sdelta p.G previous.G + 2) * 4
          + (sdelta p.B previous.B + 2)).toNat]
      else if Spec.lumaOk p previous then
        [128 + (sdelta p.G previous.G + 32).toNat,
         ((sdelta p.R previous.R - sdelta p.G previous.G + 8) * 16
          + (sdelta p.B previous.B - sdelta p.G previous.G + 8)).toNat]
      else if p.A = previous.A then [254, p.R.val, p.G.val, p.B.val]
      else [255, p.R.val, p.G.val, p.B.val, p.A.val]

/-- The number of pixels the chunk consumes: the run length for Run, else 1. -/
def Spec.consumed (p : NRGBA) (rest : List NRGBA) (previous : NRGBA) : Nat :=
  if p = previous then runLength previous 62 (p :: rest) else 1

/-- The chunk stream for the pixels `px`: after every chunk the pixel it consumed is
inserted into the cache and becomes the previous pixel.  `bound` is any number of at
least `px.length`. -/
def Spec.encodeChunks : Nat → List NRGBA → Spec.Cache → NRGBA → List Nat
  | 0, _, _, _ => []
  | _ + 1, [], _, _ => []
  | bound + 1, p :: rest, t, previous =>
    Spec.chunkBytes p rest t previous ++
      Spec.encodeChunks bound ((p :: rest).drop (Spec.consumed p rest previous))
        (t.insert p) p

/-- The chunk stream of the reference encoder, from the initial state. -/
def Spec.encode (px : List NRGBA) : List Nat :=
  Spec.encodeChunks px.length px Spec.Cache.init { R := 0, G := 0, B := 0, A := 255 }

/-- The cache of the code and the cache of the specification hold the same slots. -/
def SameCache (cc : colorCache) (t : Spec.Cache) : Prop := ∀ i : Fin 64, cc i = t i.val

/-- The number of bytes of each variant on the wire: 1 for Run, Index and Diff, 2 for
Luma, 4 for RGB, 5 for RGBA. -/
def chunk.wireLength : chunk → Nat
  | .opRun _ => 1
  | .opIndex _ => 1
  | .opDiff _ _ _ => 1
  | .opLuma _ _ _ => 2
  | .opRGB _ => 4
  | .opRGBA _ => 5

/-- A raster of width 2 and height 0; like `(*image.NRGBA).At`, it gives the zero colour
at every point outside its (empty) rectangle. -/
def emptyImage : Image :=
  { Bounds := { Min := { X := 0, Y := 0 }, Max := { X := 2, Y := 0 } }
    At := fun _ _ => { R := 0, G := 0, B := 0, A := 0 } }

/-- The variables of the loop of `Decode` between two chunks. -/
structure DecodeState where
  img : NRGBAImage
  cc : colorCache
  previous : NRGBA
  x : Nat
  y : Nat

/-- The state the loop of `Decode` reaches by setting the chunks `ops` one after the
other, each at a position inside the raster (`y < cfg.Height`, as the loop requires);
`none` when a chunk would start outside the raster or `set` panics. -/
def decodeSteps (cfg : Config) : List chunk → DecodeState → Option DecodeState
  | [], s => some s
  | op :: ops, s =>
    if s.y < cfg.Height then
      match op.set s.img s.x s.y s.cc s.previous with
      | .error _ => none
      | .ok (n, previous1, img1) =>
        decodeSteps cfg ops
          { img := img1, cc := s.cc.add previous1, previous := previous1,
            x := (s.x + n) % cfg.Width, y := s.y + (s.x + n) / cfg.Width }
    else none

/-! # Theorems -/

/-! ## Wire format lemmas -/

set_option maxRecDepth 100000 in
theorem index_byte_facts : ∀ i : Byte, i.val < 64 →
    (opTagIndex ||| i) ≠ opTagRGB ∧ (opTagIndex ||| i) ≠ opTagRGBA ∧
    (opTagIndex ||| i) &&& 0b11000000 = opTagIndex ∧ (opTagIndex ||| i) &&& 0b00111111 = i := by
  decide

set_option maxRecDepth 100000 in
theorem run_byte_facts : ∀ n : Byte, 1 ≤ n.val → n.val ≤ 62 →
    (opTagRun ||| (n - 1)) ≠ opTagRGB ∧ (opTagRun ||| (n - 1)) ≠ opTagRGBA ∧
    (opTagRun ||| (n - 1)) &&& 0b11000000 ≠ opTagIndex ∧
    (opTagRun ||| (n - 1)) &&& 0b11000000 ≠ opTagDiff ∧
    (opTagRun ||| (n - 1)) &&& 0b11000000 ≠ opTagLuma ∧
    ((opTagRun ||| (n - 1)) &&& 0b00111111) + 1 = n := by
  decide

theorem diff_byte_facts (dr dg db : Int) (h1 : -2 ≤ dr ∧ dr ≤ 1) (h3 : -2 ≤ dg ∧ dg ≤ 1)
    (h5 : -2 ≤ db ∧ db ≤ 1) :
    ∃ b, opDiff.encode dr dg db = [b] ∧ b ≠ opTagRGB ∧ b ≠ opTagRGBA ∧
      b &&& 0b11000000 ≠ opTagIndex ∧ b &&& 0b11000000 = opTagDiff ∧
      wrap8 (int8 ((b &&& 0b00110000) >>> 4) - 2) = dr ∧
      wrap8 (int8 ((b &&& 0b00001100) >>> 2) - 2) = dg ∧
      wrap8 (int8 ((b &&& 0b00000011) >>> 0) - 2) = db := by
  refine ⟨_, rfl, ?_⟩
  obtain ⟨h1, h2⟩ := h1
  obtain ⟨h3, h4⟩ := h3
  obtain ⟨h5, h6⟩ := h5
  interval_cases dr <;> interval_cases dg <;> interval_cases db <;> decide

theorem luma_byte0_facts (dg : Int) (h : -32 ≤ dg ∧ dg ≤ 31) :
    (opTagLuma ||| uint8 (wrap8 (dg + 32))) ≠ opTagRGB ∧
    (opTagLuma ||| uint8 (wrap8 (dg + 32))) ≠ opTagRGBA ∧
    (opTagLuma ||| uint8 (wrap8 (dg + 32))) &&& 0b11000000 ≠ opTagIndex ∧
    (opTagLuma ||| uint8 (wrap8 (dg + 32))) &&& 0b11000000 ≠ opTagDiff ∧
    (opTagLuma ||| uint8 (wrap8 (dg + 32))) &&& 0b11000000 = opTagLuma ∧
    wrap8 (int8 ((opTagLuma ||| uint8 (wrap8 (dg + 32))) &&& 0b00111111) - 32) = dg := by
  obtain ⟨h1, h2⟩ := h
  interval_cases dg <;> decide

theorem luma_byte1_facts (drdg dbdg : Int) (h1 : -8 ≤ drdg ∧ drdg ≤ 7) (h3 : -8 ≤ dbdg ∧ dbdg ≤ 7) :
    wrap8 (int8 ((((uint8 (wrap8 (drdg + 8)) <<< 4) ||| uint8 (wrap8 (dbdg + 8))) &&& 0b11110000)
      >>> 4) - 8) = drdg ∧
    wrap8 (int8 ((((uint8 (wrap8 (drdg + 8)) <<< 4) ||| uint8 (wrap8 (dbdg + 8))) &&& 0b00001111)
      >>> 0) - 8) = dbdg := by
  obtain ⟨h1, h2⟩ := h1
  obtain ⟨h3, h4⟩ := h3
  interval_cases drdg <;> interval_cases dbdg <;> decide

theorem tag_facts : opTagDiff ≠ opTagIndex ∧ opTagLuma ≠ opTagIndex ∧ opTagLuma ≠ opTagDiff ∧
    opTagRGBA ≠ opTagRGB := by decide

/-- Wire round trip: a chunk within its field ranges is read back unchanged,
and the bytes after it are left in the reader. -/
theorem decodeChunk_encode (op : chunk) (h : op.InRange) (rest : List Byte) :
    decodeChunk (op.encode ++ rest) = .ok (op, rest) := by
  cases op with
  | opRGB c =>
    obtain ⟨r, g, b, a⟩ := c
    simp only [chunk.InRange] at h
    subst h
    simp [chunk.encode, opRGB.encode, decodeChunk, ReadByte, opRGB.decode, ReadFull]
  | opRGBA c =>
    obtain ⟨r, g, b, a⟩ := c
    have : opTagRGBA ≠ opTagRGB := by decide
    simp [chunk.encode, opRGBA.encode, decodeChunk, ReadByte, opRGBA.decode, ReadFull, this]
  | opIndex i =>
    obtain ⟨h1, h2, h3, h4⟩ := index_byte_facts i h
    simp [chunk.encode, opIndex.encode, decodeChunk, ReadByte, opIndex.decode, h1, h2, h3, h4]
  | opDiff dr dg db =>
    obtain ⟨b, hb, h1, h2, h3, h4, h5, h6, h7⟩ := diff_byte_facts dr dg db h.1 h.2.1 h.2.2
    simp [chunk.encode, hb, decodeChunk, ReadByte, opDiff.decode, h1, h2, h4, h5, h6, h7,
      tag_facts.1]
  | opLuma dg drdg dbdg =>
    obtain ⟨h1, h2, h3, h4, h5, h6⟩ := luma_byte0_facts dg h.1
    obtain ⟨h7, h8⟩ := luma_byte1_facts drdg dbdg h.2.1 h.2.2
    simp [chunk.encode, opLuma.encode, decodeChunk, ReadByte, opLuma.decode, ReadFull,
      h1, h2, h5, h6, h7, h8, tag_facts.2.1, tag_facts.2.2.1]
  | opRun n =>
    obtain ⟨h1, h2, h3, h4, h5, h6⟩ := run_byte_facts n h.1 h.2
    simp [chunk.encode, opRun.encode, decodeChunk, ReadByte, opRun.decode, h1, h2, h3, h4, h5, h6]

/-! ## The image reader walks the pixels in row-major order -/

theorem succ_div_mod (k W : Nat) (hW : 0 < W) :
    (k % W + 1 = W ∧ (k + 1) % W = 0 ∧ (k + 1) / W = k / W + 1) ∨
    (k % W + 1 < W ∧ (k + 1) % W = k % W + 1 ∧ (k + 1) / W = k / W) := by
  have h1 := Nat.div_add_mod k W
  have h2 := Nat.mod_lt k hW
  rcases Nat.lt_or_ge (k % W + 1) W with h | h
  · right
    have e : k + 1 = k % W + 1 + W * (k / W) := by omega
    refine ⟨h, ?_, ?_⟩
    · rw [e, Nat.add_mul_mod_self_left, Nat.mod_eq_of_lt h]
    · rw [e, Nat.add_mul_div_left _ _ hW, Nat.div_eq_of_lt h]; omega
  · left
    have h3 : k % W + 1 = W := by omega
    have e : k + 1 = W * (k / W + 1) := by rw [Nat.mul_add]; omega
    refine ⟨h3, ?_, ?_⟩
    · rw [e, Nat.mul_mod_right]
    · rw [e, Nat.mul_div_cancel_left _ hW]

theorem Image.W_cast (m : Image) (h : 1 ≤ m.Bounds.Dx) :
    (m.W : Int) = m.Bounds.Max.X - m.Bounds.Min.X := by
  simp only [Image.W, Rectangle.Dx] at *
  omega

theorem Image.W_pos (m : Image) (h : 1 ≤ m.Bounds.Dx) : 0 < m.W := by
  simp only [Image.W, Rectangle.Dx] at *
  omega

theorem Image.H_pos (m : Image) (h : 1 ≤ m.Bounds.Dy) : 0 < m.H := by
  simp only [Image.H, Rectangle.Dy] at *
  omega

theorem Image.H_cast (m : Image) (h : 1 ≤ m.Bounds.Dy) :
    (m.H : Int) = m.Bounds.Max.Y - m.Bounds.Min.Y := by
  simp only [Image.H, Rectangle.Dy] at *
  omega

theorem newImageReader_eq (m : Image) (hW : 1 ≤ m.Bounds.Dx) (hH : 1 ≤ m.Bounds.Dy) :
    newImageReader m = readerAt m 0 := by
  have h1 := m.W_cast hW
  have h2 := m.H_cast hH
  have h3 : 0 < m.W * m.H := Nat.mul_pos (m.W_pos hW) (m.H_pos hH)
  simp [newImageReader, readerAt, h3, Image.pix]

theorem readerAt_next (m : Image) (hW : 1 ≤ m.Bounds.Dx) (hH : 1 ≤ m.Bounds.Dy) (k : Nat)
    (hk : k < m.W * m.H) : (readerAt m k).next = readerAt m (k + 1) := by
  have h1 := m.W_cast hW
  have h2 := m.H_cast hH
  have hW0 : 0 < m.W := m.W_pos hW
  have hlt : (k + 1) / m.W < m.H ↔ k + 1 < m.W * m.H := by
    rw [Nat.div_lt_iff_lt_mul hW0, Nat.mul_comm]
  have hX0 : m.Bounds.Min.X + ((0 : Nat) : Int) = m.Bounds.Min.X := by simp
  have hY1 : m.Bounds.Min.Y + ((k / m.W + 1 : Nat) : Int)
      = m.Bounds.Min.Y + ((k / m.W : Nat) : Int) + 1 := by omega
  have hX1 : m.Bounds.Min.X + ((k % m.W + 1 : Nat) : Int)
      = m.Bounds.Min.X + ((k % m.W : Nat) : Int) + 1 := by omega
  rcases succ_div_mod k m.W hW0 with ⟨e1, e2, e3⟩ | ⟨e1, e2, e3⟩
  · have hx : m.Bounds.Min.X + ((k % m.W : Nat) : Int) + 1 = m.Bounds.Max.X := by omega
    by_cases hn : k + 1 < m.W * m.H
    · have hy : ¬ (m.Bounds.Max.Y ≤ m.Bounds.Min.Y + ((k / m.W : Nat) : Int) + 1) := by
        have := hlt.2 hn
        omega
      simp only [imageReader.next, readerAt, Image.pix, hx, e2, e3, hn, hy, hX0, hY1,
        ↓reduceIte, ge_iff_le]
    · have hy : m.Bounds.Max.Y ≤ m.Bounds.Min.Y + ((k / m.W : Nat) : Int) + 1 := by
        have : ¬ (k + 1) / m.W < m.H := fun h => hn (hlt.1 h)
        omega
      simp only [imageReader.next, readerAt, Image.pix, hx, e2, e3, hn, hy, hX0, hY1,
        ↓reduceIte, ge_iff_le]
  · have hx : ¬ (m.Bounds.Min.X + ((k % m.W : Nat) : Int) + 1 = m.Bounds.Max.X) := by omega
    have hk' : k / m.W < m.H := by
      rw [Nat.div_lt_iff_lt_mul hW0, Nat.mul_comm]; exact hk
    by_cases hn : k + 1 < m.W * m.H
    · have hy : ¬ (m.Bounds.Max.Y ≤ m.Bounds.Min.Y + ((k / m.W : Nat) : Int)) := by omega
      simp only [imageReader.next, readerAt, Image.pix, hx, e2, e3, hn, hy, hX1,
        ↓reduceIte, ge_iff_le]
    · exfalso
      have : ¬ (k + 1) / m.W < m.H := fun h => hn (hlt.1 h)
      rw [e3] at this
      exact this hk'

theorem Image.pixels_length (m : Image) : m.pixels.length = m.W * m.H := by
  simp [Image.pixels]

theorem Image.pixels_drop (m : Image) (k : Nat) (hk : k < m.W * m.H) :
    m.pixels.drop k = m.pix k :: m.pixels.drop (k + 1) := by
  have h : k < m.pixels.length := by rw [m.pixels_length]; exact hk
  rw [List.drop_eq_getElem_cons h]
  simp [Image.pixels]

theorem Reads_init (m : Image) (hW : 1 ≤ m.Bounds.Dx) (hH : 1 ≤ m.Bounds.Dy) :
    Reads m (newImageReader m) m.pixels :=
  ⟨0, Nat.zero_le _, newImageReader_eq m hW hH, by simp⟩

theorem Reads_nil (m : Image) (r : imageReader) (h : Reads m r []) : r.c = none := by
  obtain ⟨k, hk, rfl, hd⟩ := h
  have : m.pixels.length ≤ k := List.drop_eq_nil_iff.mp hd.symm
  rw [m.pixels_length] at this
  simp only [readerAt]
  rw [if_neg (by omega)]

theorem Reads_cons (m : Image) (hW : 1 ≤ m.Bounds.Dx) (hH : 1 ≤ m.Bounds.Dy) (r : imageReader)
    (c : NRGBA) (rest : List NRGBA) (h : Reads m r (c :: rest)) :
    r.c = some c ∧ Reads m r.next rest := by
  obtain ⟨k, hk, rfl, hd⟩ := h
  have hk' : k < m.W * m.H := by
    rcases Nat.lt_or_ge k (m.W * m.H) with h | h
    · exact h
    · have : m.pixels.drop k = [] := List.drop_eq_nil_iff.mpr (by rw [m.pixels_length]; exact h)
      rw [this] at hd
      exact absurd hd (by simp)
  rw [m.pixels_drop k hk'] at hd
  injection hd with e1 e2
  refine ⟨by simp [readerAt, hk', e1], k + 1, hk', readerAt_next m hW hH k hk', e2⟩

theorem Reads_length (m : Image) (r : imageReader) (px : List NRGBA) (h : Reads m r px) :
    px.length ≤ m.W * m.H := by
  obtain ⟨k, _, _, rfl⟩ := h
  simp [Image.pixels_length]

/-! ## The chunk selected by `encodeChunk` -/

theorem runLength_le_cap (previous : NRGBA) (cap : Nat) (px : List NRGBA) :
    runLength previous cap px ≤ cap := by
  induction cap generalizing px with
  | zero => simp [runLength]
  | succ cap ih =>
    cases px with
    | nil => simp [runLength]
    | cons c rest =>
      simp only [runLength]
      split
      · have := ih rest; omega
      · omega

theorem runLength_le_length (previous : NRGBA) (cap : Nat) (px : List NRGBA) :
    runLength previous cap px ≤ px.length := by
  induction cap generalizing px with
  | zero => simp [runLength]
  | succ cap ih =>
    cases px with
    | nil => simp [runLength]
    | cons c rest =>
      simp only [runLength, List.length_cons]
      split
      · have := ih rest; omega
      · omega

theorem runLength_take (previous : NRGBA) (cap : Nat) (px : List NRGBA) :
    px.take (runLength previous cap px) = List.replicate (runLength previous cap px) previous := by
  induction cap generalizing px with
  | zero => simp [runLength]
  | succ cap ih =>
    cases px with
    | nil => simp [runLength]
    | cons c rest =>
      simp only [runLength]
      split
      · next h => simp [List.replicate_succ, ih rest, h]
      · simp

theorem runLength_cons_pos (previous c : NRGBA) (cap : Nat) (rest : List NRGBA) :
    runLength previous (cap + 1) (c :: rest) ≠ 0 ↔ c = previous := by
  simp only [runLength]
  split <;> simp [*]

theorem Reads_iterate (m : Image) (hW : 1 ≤ m.Bounds.Dx) (hH : 1 ≤ m.Bounds.Dy) (j : Nat) :
    ∀ (r : imageReader) (px : List NRGBA), Reads m r px → j ≤ px.length →
      Reads m (imageReader.next^[j] r) (px.drop j) := by
  induction j with
  | zero => intro r px h _; simpa using h
  | succ j ih =>
    intro r px h hj
    cases px with
    | nil => simp at hj
    | cons c rest =>
      have := (Reads_cons m hW hH r c rest h).2
      simpa using ih r.next rest this (by simpa using hj)

theorem newOpRun_loop_Reads (m : Image) (hW : 1 ≤ m.Bounds.Dx) (hH : 1 ≤ m.Bounds.Dy)
    (previous : NRGBA) (fuel : Nat) :
    ∀ (r : imageReader) (run : Byte) (px : List NRGBA), Reads m r px → run.val + fuel ≤ 62 →
      ∃ run1 : Byte, newOpRun.loop previous fuel r run
          = (imageReader.next^[runLength previous fuel px] r, run1) ∧
        run1.val = run.val + runLength previous fuel px := by
  induction fuel with
  | zero => intro r run px _ _; exact ⟨run, by simp [newOpRun.loop, runLength]⟩
  | succ fuel ih =>
    intro r run px h hrun
    cases px with
    | nil =>
      have := Reads_nil m r h
      exact ⟨run, by simp [newOpRun.loop, runLength, this]⟩
    | cons c rest =>
      obtain ⟨hc, hnext⟩ := Reads_cons m hW hH r c rest h
      by_cases hcp : c = previous
      · have hlt : run < 62 := by
          rw [Fin.lt_def]
          have : ((62 : Byte) : Nat) = 62 := rfl
          omega
        have hv : (run + 1).val = run.val + 1 := by
          have : run.val < 62 := by omega
          omega
        obtain ⟨run1, e1, e2⟩ := ih r.next (run + 1) rest hnext (by omega)
        refine ⟨run1, ?_, by simp only [runLength, hcp, if_true]; omega⟩
        simp only [newOpRun.loop, hc, hcp, hlt, and_self, if_true, runLength,
          Function.iterate_succ, Function.comp_apply]
        rw [← hcp]
        exact hcp ▸ e1
      · exact ⟨run, by simp [newOpRun.loop, runLength, hc, hcp]⟩

theorem newOpRun_Reads (m : Image) (hW : 1 ≤ m.Bounds.Dx) (hH : 1 ≤ m.Bounds.Dy)
    (previous : NRGBA) (r : imageReader) (px : List NRGBA) (h : Reads m r px) :
    newOpRun r previous =
      (if runLength previous 62 px = 0 then none
        else some (.opRun (Fin.ofNat (runLength previous 62 px))),
       imageReader.next^[runLength previous 62 px] r) := by
  obtain ⟨run1, e1, e2⟩ := newOpRun_loop_Reads m hW hH previous 62 r 0 px h (by simp)
  have hle := runLength_le_cap previous 62 px
  have hrun : run1 = Fin.ofNat (runLength previous 62 px) := by
    apply Fin.ext
    simp only [Fin.ofNat, e2]
    simp
    omega
  simp only [newOpRun, e1]
  by_cases h0 : runLength previous 62 px = 0
  · have : run1 = 0 := by rw [hrun, h0]; rfl
    simp [h0, this]
  · have : run1 ≠ 0 := by
      intro h1
      rw [h1] at e2
      simp at e2
      omega
    rw [if_neg this, if_neg h0, hrun]

theorem newOpRun_loop_iterate (previous : NRGBA) (fuel : Nat) :
    ∀ (r : imageReader) (run : Byte), run.val + fuel ≤ 62 →
      ∃ (j : Nat) (run1 : Byte),
        newOpRun.loop previous fuel r run = (imageReader.next^[j] r, run1) ∧
        run1.val = run.val + j ∧ j ≤ fuel ∧ (j ≠ 0 → r.c = some previous) ∧
        (r.c = some previous → fuel ≠ 0 → j ≠ 0) := by
  induction fuel with
  | zero => intro r run _; exact ⟨0, run, by simp [newOpRun.loop]⟩
  | succ fuel ih =>
    intro r run hrun
    cases hc : r.c with
    | none => exact ⟨0, run, by simp [newOpRun.loop, hc]⟩
    | some c =>
      by_cases hcp : c = previous
      · have hlt : run < 62 := by
          rw [Fin.lt_def]
          have : ((62 : Byte) : Nat) = 62 := rfl
          omega
        have hv : (run + 1).val = run.val + 1 := by
          have : run.val < 62 := by omega
          omega
        obtain ⟨j, run1, e1, e2, e3, _⟩ := ih r.next (run + 1) (by omega)
        refine ⟨j + 1, run1, ?_, by omega, by omega, fun _ => by rw [hcp],
          fun _ _ => Nat.succ_ne_zero j⟩
        simp only [newOpRun.loop, hc, hcp, hlt, and_self, if_true, Function.iterate_succ,
          Function.comp_apply]
        exact e1
      · exact ⟨0, run, by simp [newOpRun.loop, hc, hcp]⟩

theorem newOpRun_iterate (previous : NRGBA) (r : imageReader) :
    ∃ n : Nat, n ≤ 62 ∧ (n ≠ 0 ↔ r.c = some previous) ∧
      newOpRun r previous =
        (if n = 0 then none else some (.opRun (Fin.ofNat n)), imageReader.next^[n] r) := by
  obtain ⟨j, run1, e1, e2, e3, e4, e5⟩ := newOpRun_loop_iterate previous 62 r 0 (by simp)
  have hrun : run1 = Fin.ofNat j := by
    apply Fin.ext
    simp only [Fin.ofNat, e2]
    simp
    omega
  refine ⟨j, e3, ⟨e4, fun h => e5 h (by decide)⟩, ?_⟩
  simp only [newOpRun, e1]
  by_cases h0 : j = 0
  · have : run1 = 0 := by rw [hrun, h0]; rfl
    simp [h0, this]
  · have : run1 ≠ 0 := by
      intro h1
      rw [h1] at e2
      simp at e2
      omega
    rw [if_neg this, if_neg h0, hrun]

theorem encodeChunk_of_newOpRun (cc : colorCache) (previous : NRGBA) (r r1 : imageReader)
    (c : NRGBA) (n : Nat) (hc : r.c = some c)
    (hrun : newOpRun r previous = (if n = 0 then none else some (.opRun (Fin.ofNat n)), r1))
    (hr1 : n = 0 → r1 = r) :
    encodeChunk r cc previous =
      .ok (pickChunk c n cc previous, if n = 0 then r.next else r1) := by
  by_cases h0 : n = 0
  · rw [hr1 h0] at hrun
    rw [h0] at hrun ⊢
    simp only [if_true] at hrun
    simp only [encodeChunk, hrun, pickChunk, ne_eq, not_true_eq_false, if_false, if_true]
    by_cases hidx : cc (colorCache.idx c) = c
    · have hnn : ¬ (((colorCache.idx c).val : Int) < 0) := by omega
      simp [newOpIndex, hc, colorCache.get, hidx, hnn]
    · simp only [newOpIndex, hc, colorCache.get, hidx, ne_eq, not_false_eq_true, if_true,
        if_false]
      simp only [show ((-1 : Int) < 0) from by decide, if_true]
      by_cases hA : c.A = previous.A
      · simp only [newOpDiff, hc, hA, ne_eq, not_true_eq_false, if_false, true_and]
        by_cases hd : (-2 ≤ int8 (c.R - previous.R) ∧ int8 (c.R - previous.R) ≤ 1) ∧
            (-2 ≤ int8 (c.G - previous.G) ∧ int8 (c.G - previous.G) ≤ 1) ∧
            (-2 ≤ int8 (c.B - previous.B) ∧ int8 (c.B - previous.B) ≤ 1)
        · obtain ⟨⟨a1, a2⟩, ⟨a3, a4⟩, a5, a6⟩ := hd
          have b1 : ¬ (int8 (c.R - previous.R) < -2 ∨ int8 (c.R - previous.R) > 1) := by omega
          have b2 : ¬ (int8 (c.G - previous.G) < -2 ∨ int8 (c.G - previous.G) > 1) := by omega
          have b3 : ¬ (int8 (c.B - previous.B) < -2 ∨ int8 (c.B - previous.B) > 1) := by omega
          simp only [b1, b2, b3, if_false, a1, a2, a3, a4, a5, a6, and_self, if_true]
        · have hd' : ¬ (¬ (int8 (c.R - previous.R) < -2 ∨ int8 (c.R - previous.R) > 1) ∧
              ¬ (int8 (c.G - previous.G) < -2 ∨ int8 (c.G - previous.G) > 1) ∧
              ¬ (int8 (c.B - previous.B) < -2 ∨ int8 (c.B - previous.B) > 1)) := by
            intro ⟨b1, b2, b3⟩
            exact hd ⟨by omega, by omega, by omega⟩
          have e1 : (if int8 (c.R - previous.R) < -2 ∨ int8 (c.R - previous.R) > 1 then
                (Except.ok (none, r) : Except Panic (Option chunk × imageReader))
              else if int8 (c.G - previous.G) < -2 ∨ int8 (c.G - previous.G) > 1 then .ok (none, r)
              else if int8 (c.B - previous.B) < -2 ∨ int8 (c.B - previous.B) > 1 then .ok (none, r)
              else .ok (some (.opDiff (int8 (c.R - previous.R)) (int8 (c.G - previous.G))
                (int8 (c.B - previous.B))), r.next)) = .ok (none, r) := by
            split_ifs with b1 b2 b3 <;> first | rfl | exact absurd ⟨b1, b2, b3⟩ hd'
          simp only [e1, hd, if_false]
          simp only [newOpLuma, hc, hA, ne_eq, not_true_eq_false, if_false]
          by_cases hl : (-32 ≤ int8 (c.G - previous.G) ∧ int8 (c.G - previous.G) ≤ 31) ∧
              (-8 ≤ wrap8 (int8 (c.R - previous.R) - int8 (c.G - previous.G)) ∧
                wrap8 (int8 (c.R - previous.R) - int8 (c.G - previous.G)) ≤ 7) ∧
              (-8 ≤ wrap8 (int8 (c.B - previous.B) - int8 (c.G - previous.G)) ∧
                wrap8 (int8 (c.B - previous.B) - int8 (c.G - previous.G)) ≤ 7)
          · obtain ⟨⟨a1, a2⟩, ⟨a3, a4⟩, a5, a6⟩ := hl
            have b1 : ¬ (int8 (c.G - previous.G) < -32 ∨ int8 (c.G - previous.G) > 31) := by omega
            have b2 : ¬ (wrap8 (int8 (c.R - previous.R) - int8 (c.G - previous.G)) < -8 ∨
                wrap8 (int8 (c.R - previous.R) - int8 (c.G - previous.G)) > 7) := by omega
            have b3 : ¬ (wrap8 (int8 (c.B - previous.B) - int8 (c.G - previous.G)) < -8 ∨
                wrap8 (int8 (c.B - previous.B) - int8 (c.G - previous.G)) > 7) := by omega
            simp only [b1, b2, b3, if_false, a1, a2, a3, a4, a5, a6, and_self, if_true]
          · have hl' : ¬ (¬ (int8 (c.G - previous.G) < -32 ∨ int8 (c.G - previous.G) > 31) ∧
                ¬ (wrap8 (int8 (c.R - previous.R) - int8 (c.G - previous.G)) < -8 ∨
                  wrap8 (int8 (c.R - previous.R) - int8 (c.G - previous.G)) > 7) ∧
                ¬ (wrap8 (int8 (c.B - previous.B) - int8 (c.G - previous.G)) < -8 ∨
                  wrap8 (int8 (c.B - previous.B) - int8 (c.G - previous.G)) > 7)) := by
              intro ⟨b1, b2, b3⟩
              exact hl ⟨by omega, by omega, by omega⟩
            have e2 : (if int8 (c.G - previous.G) < -32 ∨ int8 (c.G - previous.G) > 31 then
                  (Except.ok (none, r) : Except Panic (Option chunk × imageReader))
                else if wrap8 (int8 (c.R - previous.R) - int8 (c.G - previous.G)) < -8 ∨
                    wrap8 (int8 (c.R - previous.R) - int8 (c.G - previous.G)) > 7 then
                  .ok (none, r)
                else if wrap8 (int8 (c.B - previous.B) - int8 (c.G - previous.G)) < -8 ∨
                    wrap8 (int8 (c.B - previous.B) - int8 (c.G - previous.G)) > 7 then
                  .ok (none, r)
                else .ok (some (.opLuma (int8 (c.G - previous.G))
                  (wrap8 (int8 (c.R - previous.R) - int8 (c.G - previous.G)))
                  (wrap8 (int8 (c.B - previous.B) - int8 (c.G - previous.G)))), r.next))
                = .ok (none, r) := by
              split_ifs with b1 b2 b3 <;> first | rfl | exact absurd ⟨b1, b2, b3⟩ hl'
            simp only [e2, hl, if_false]
            simp [newOpRGB, hc, hA]
      · have hd : ¬ (c.A = previous.A ∧
            (-2 ≤ int8 (c.R - previous.R) ∧ int8 (c.R - previous.R) ≤ 1) ∧
            (-2 ≤ int8 (c.G - previous.G) ∧ int8 (c.G - previous.G) ≤ 1) ∧
            (-2 ≤ int8 (c.B - previous.B) ∧ int8 (c.B - previous.B) ≤ 1)) := fun h => hA h.1
        have hl : ¬ (c.A = previous.A ∧
            (-32 ≤ int8 (c.G - previous.G) ∧ int8 (c.G - previous.G) ≤ 31) ∧
            (-8 ≤ wrap8 (int8 (c.R - previous.R) - int8 (c.G - previous.G)) ∧
              wrap8 (int8 (c.R - previous.R) - int8 (c.G - previous.G)) ≤ 7) ∧
            (-8 ≤ wrap8 (int8 (c.B - previous.B) - int8 (c.G - previous.G)) ∧
              wrap8 (int8 (c.B - previous.B) - int8 (c.G - previous.G)) ≤ 7)) := fun h => hA h.1
        simp only [hd, hl, hA, if_false]
        simp [newOpDiff, newOpLuma, newOpRGB, newOpRGBA, hc, hA]
  · simp only [encodeChunk, hrun, if_neg h0, pickChunk, ne_eq, h0, not_false_eq_true, if_true,
      if_false]

theorem encodeChunk_iterate (cc : colorCache) (previous : NRGBA) (r : imageReader) (c : NRGBA)
    (hc : r.c = some c) :
    ∃ n : Nat, n ≤ 62 ∧ (n ≠ 0 ↔ c = previous) ∧
      encodeChunk r cc previous =
        .ok (pickChunk c n cc previous, imageReader.next^[max n 1] r) := by
  obtain ⟨n, h1, h2, h3⟩ := newOpRun_iterate previous r
  refine ⟨n, h1, ?_, ?_⟩
  · rw [h2, hc]
    exact ⟨fun h => Option.some.inj h, fun h => by rw [h]⟩
  · rw [encodeChunk_of_newOpRun cc previous r _ c n hc h3 (fun h => by rw [h]; rfl)]
    by_cases h0 : n = 0
    · simp [h0]
    · have : max n 1 = n := by omega
      simp [h0, this]

theorem encodeChunk_Reads (m : Image) (hW : 1 ≤ m.Bounds.Dx) (hH : 1 ≤ m.Bounds.Dy)
    (cc : colorCache) (previous : NRGBA) (r : imageReader) (c : NRGBA) (rest : List NRGBA)
    (h : Reads m r (c :: rest)) :
    encodeChunk r cc previous =
      .ok (pickChunk c (runLength previous 62 (c :: rest)) cc previous,
           imageReader.next^[max (runLength previous 62 (c :: rest)) 1] r) := by
  have hc := (Reads_cons m hW hH r c rest h).1
  have hrun := newOpRun_Reads m hW hH previous r (c :: rest) h
  rw [encodeChunk_of_newOpRun cc previous r _ c _ hc hrun (fun h => by rw [h]; rfl)]
  by_cases h0 : runLength previous 62 (c :: rest) = 0
  · simp [h0]
  · have : max (runLength previous 62 (c :: rest)) 1 = runLength previous 62 (c :: rest) := by
      omega
    simp [h0, this]

/-! ## The pixel buffer -/

theorem pickChunk_InRange (c : NRGBA) (n : Nat) (cc : colorCache) (previous : NRGBA)
    (hn : n ≤ 62) : (pickChunk c n cc previous).InRange := by
  unfold pickChunk
  split_ifs with h1 h2 h3 h4 h5
  · simp only [chunk.InRange, Fin.ofNat]
    have : n % 256 = n := Nat.mod_eq_of_lt (by omega)
    simp only [Nat.succ_eq_add_one, Nat.reduceAdd, this]
    omega
  · simp only [chunk.InRange, uint8]
    have := (colorCache.idx c).isLt
    omega
  · exact h3.2
  · exact h4.2
  · simp [chunk.InRange]
  · simp [chunk.InRange]

theorem uint8_wrap8_diff (a b : Byte) : uint8 (wrap8 (int8 b + int8 (a - b))) = a := by
  apply Fin.ext
  simp only [uint8, wrap8, int8]
  split_ifs <;> omega

theorem uint8_wrap8_luma (a b g h : Byte) :
    uint8 (wrap8 (wrap8 (int8 b + int8 (g - h)) + wrap8 (int8 (a - b) - int8 (g - h)))) = a := by
  apply Fin.ext
  simp only [uint8, wrap8, int8]
  split_ifs <;> omega

theorem pickChunk_set (c : NRGBA) (cc : colorCache) (previous : NRGBA) (img : NRGBAImage)
    (x y : Nat) :
    (pickChunk c 0 cc previous).set img x y cc previous = .ok (1, c, img.SetNRGBA x y c) := by
  obtain ⟨cr, cg, cb, ca⟩ := c
  unfold pickChunk
  split_ifs with h1 h2 h3 h4 h5
  · exact absurd rfl h1
  · have hv : (uint8 ((colorCache.idx ⟨cr, cg, cb, ca⟩).val : Int)).val
        = (colorCache.idx ⟨cr, cg, cb, ca⟩).val := by
      have := (colorCache.idx ⟨cr, cg, cb, ca⟩).isLt
      simp only [uint8]
      omega
    have hlt : (uint8 ((colorCache.idx ⟨cr, cg, cb, ca⟩).val : Int)).val < 64 := by
      rw [hv]; exact (colorCache.idx ⟨cr, cg, cb, ca⟩).isLt
    have hfin : (⟨(uint8 ((colorCache.idx ⟨cr, cg, cb, ca⟩).val : Int)).val, hlt⟩ : Fin 64)
        = colorCache.idx ⟨cr, cg, cb, ca⟩ := Fin.ext hv
    simp only [chunk.set, opIndex.set, hlt, dite_true, hfin, h2]
  · simp only [chunk.set, opDiff.set, uint8_wrap8_diff]
    simp only at h3
    rw [← h3.1]
  · simp only [chunk.set, opLuma.set, uint8_wrap8_diff, uint8_wrap8_luma]
    simp only at h4
    rw [← h4.1]
  · simp only [chunk.set, opRGB.set, opRGBA.set]
    simp only at h5
    rw [← h5]
  · simp only [chunk.set, opRGBA.set]

theorem NRGBAImage.store_Pix_length (img : NRGBAImage) (j : Nat) (c : NRGBA) :
    (img.store j c).Pix.length = img.Pix.length := by
  simp [NRGBAImage.store]

theorem NRGBAImage.store_Shaped (img : NRGBAImage) (j : Nat) (c : NRGBA) (w h : Nat)
    (hs : img.Shaped w h) : (img.store j c).Shaped w h := by
  obtain ⟨h1, h2, h3, h4⟩ := hs
  exact ⟨h1, h2, h3, by rw [img.store_Pix_length]; exact h4⟩

theorem NRGBAImage.store_pixelAt_same (img : NRGBAImage) (i : Nat) (c : NRGBA)
    (hi : 4 * i + 4 ≤ img.Pix.length) : (img.store (4 * i) c).pixelAt i = c := by
  obtain ⟨cr, cg, cb, ca⟩ := c
  simp only [NRGBAImage.pixelAt, NRGBAImage.store, List.getD_eq_getElem?_getD,
    List.getElem?_set, List.length_set]
  have h0 : 4 * i < img.Pix.length := by omega
  have h1 : 4 * i + 1 < img.Pix.length := by omega
  have h2 : 4 * i + 2 < img.Pix.length := by omega
  have h3 : 4 * i + 3 < img.Pix.length := by omega
  simp [h0, h1, h2, h3]

theorem NRGBAImage.store_pixelAt_other (img : NRGBAImage) (i j : Nat) (c : NRGBA)
    (hij : i ≠ j) : (img.store (4 * j) c).pixelAt i = img.pixelAt i := by
  simp only [NRGBAImage.pixelAt, NRGBAImage.store, List.getD_eq_getElem?_getD,
    List.getElem?_set, List.length_set]
  have a0 : ¬ (4 * j = 4 * i) := by omega
  have a1 : ¬ (4 * j = 4 * i + 1) := by omega
  have a2 : ¬ (4 * j = 4 * i + 2) := by omega
  have a3 : ¬ (4 * j = 4 * i + 3) := by omega
  have b0 : ¬ (4 * j + 1 = 4 * i) := by omega
  have b1 : ¬ (4 * j + 1 = 4 * i + 1) := by omega
  have b2 : ¬ (4 * j + 1 = 4 * i + 2) := by omega
  have b3 : ¬ (4 * j + 1 = 4 * i + 3) := by omega
  have c0 : ¬ (4 * j + 2 = 4 * i) := by omega
  have c1 : ¬ (4 * j + 2 = 4 * i + 1) := by omega
  have c2 : ¬ (4 * j + 2 = 4 * i + 2) := by omega
  have c3 : ¬ (4 * j + 2 = 4 * i + 3) := by omega
  have d0 : ¬ (4 * j + 3 = 4 * i) := by omega
  have d1 : ¬ (4 * j + 3 = 4 * i + 1) := by omega
  have d2 : ¬ (4 * j + 3 = 4 * i + 2) := by omega
  have d3 : ¬ (4 * j + 3 = 4 * i + 3) := by omega
  simp only [a0, a1, a2, a3, b0, b1, b2, b3, c0, c1, c2, c3, d0, d1, d2, d3, if_false]

theorem NRGBAImage.PixOffset_eq (img : NRGBAImage) (w h x y : Nat) (hs : img.Shaped w h) :
    img.PixOffset x y = 4 * (y * w + x) := by
  obtain ⟨_, _, h3, _⟩ := hs
  simp only [NRGBAImage.PixOffset, h3]
  rw [Nat.mul_add, ← Nat.mul_assoc, Nat.mul_comm y 4, Nat.mul_comm x 4, Nat.mul_assoc]

theorem NRGBAImage.SetNRGBA_eq (img : NRGBAImage) (w h x y : Nat) (hs : img.Shaped w h)
    (hx : x < w) (hy : y < h) (c : NRGBA) :
    img.SetNRGBA x y c = img.store (4 * (y * w + x)) c := by
  have := img.PixOffset_eq w h x y hs
  obtain ⟨h1, h2, _, _⟩ := hs
  simp only [NRGBAImage.SetNRGBA, h1, h2, hx, hy, and_self, if_true, this]

theorem NRGBAImage.NRGBAAt_eq (img : NRGBAImage) (w h x y : Nat) (hs : img.Shaped w h)
    (hx : x < w) (hy : y < h) : img.NRGBAAt x y = img.pixelAt (y * w + x) := by
  have := img.PixOffset_eq w h x y hs
  obtain ⟨h1, h2, _, _⟩ := hs
  simp only [NRGBAImage.NRGBAAt, h1, h2, hx, hy, and_self, if_true, this, NRGBAImage.pixelAt]

theorem NRGBAImage.fill_Shaped (c : NRGBA) (w h n : Nat) :
    ∀ (img : NRGBAImage) (k : Nat), img.Shaped w h → (img.fill c n k).Shaped w h := by
  induction n with
  | zero => intro img k hs; exact hs
  | succ n ih => intro img k hs; exact ih _ _ (img.store_Shaped _ c w h hs)

theorem NRGBAImage.fill_pixelAt_out (c : NRGBA) (n : Nat) :
    ∀ (img : NRGBAImage) (k i : Nat), (i < k ∨ k + n ≤ i) →
      (img.fill c n k).pixelAt i = img.pixelAt i := by
  induction n with
  | zero => intro img k i _; rfl
  | succ n ih =>
    intro img k i hi
    simp only [NRGBAImage.fill]
    rw [ih _ _ _ (by omega), img.store_pixelAt_other i k c (by omega)]

theorem NRGBAImage.fill_pixelAt_in (c : NRGBA) (n : Nat) :
    ∀ (img : NRGBAImage) (k i : Nat), k ≤ i → i < k + n → 4 * (k + n) ≤ img.Pix.length →
      (img.fill c n k).pixelAt i = c := by
  induction n with
  | zero => intro img k i h1 h2; omega
  | succ n ih =>
    intro img k i h1 h2 hlen
    simp only [NRGBAImage.fill]
    rcases Nat.eq_or_lt_of_le h1 with e | e
    · subst e
      rw [NRGBAImage.fill_pixelAt_out c n _ _ _ (Or.inl (Nat.lt_succ_self _))]
      exact img.store_pixelAt_same k c (by omega)
    · exact ih _ _ _ (by omega) (by omega) (by rw [img.store_Pix_length]; omega)

theorem opRun_set_loop_eq (c : NRGBA) (w h n y : Nat) (rem : Nat) :
    ∀ (i x : Nat) (img : NRGBAImage), img.Shaped w h → y * w + x + rem ≤ w * h →
      opRun.set.loop n y c rem i x img = (n, img.fill c rem (y * w + x)) := by
  induction rem with
  | zero => intro i x img _ _; rfl
  | succ rem ih =>
    intro i x img hs hle
    have hoff := img.PixOffset_eq w h x y hs
    have hlen := hs.2.2.2
    have hng : ¬ (4 * (y * w + x) + 4 > img.Pix.length) := by omega
    simp only [opRun.set.loop, hoff, hng, if_false, NRGBAImage.fill]
    rw [ih (i + 1) (x + 1) _ (img.store_Shaped _ c w h hs) (by omega)]
    rfl

/-! ## Decoding what the encoder wrote -/

theorem pos_add (k j w : Nat) (hw : 0 < w) :
    (k % w + j) % w = (k + j) % w ∧ k / w + (k % w + j) / w = (k + j) / w := by
  have h1 := Nat.div_add_mod k w
  have e : k + j = k % w + j + w * (k / w) := by omega
  constructor
  · rw [e, Nat.add_mul_mod_self_left]
  · rw [e, Nat.add_mul_div_left _ _ hw]; omega

theorem div_mul_add_mod (k w : Nat) : k / w * w + k % w = k := by
  rw [Nat.mul_comm]; exact Nat.div_add_mod k w

theorem chunk_encode_length_pos (op : chunk) : 0 < op.encode.length := by
  cases op <;> simp [chunk.encode, opRGB.encode, opRGBA.encode, opIndex.encode, opDiff.encode,
    opLuma.encode, opRun.encode]

theorem flatMap_encode_length (ops : List chunk) :
    ops.length ≤ (ops.flatMap chunk.encode).length := by
  induction ops with
  | nil => simp
  | cons op ops ih =>
    have := chunk_encode_length_pos op
    simp only [List.flatMap_cons, List.length_append, List.length_cons]
    omega

/-- What the decoder's `set` does with the chunk the encoder selected: it
stores the current colour into the groups of the pixels the chunk stands for. -/
theorem pickChunk_step (w h : Nat) (cc : colorCache) (previous c : NRGBA) (rest : List NRGBA)
    (img : NRGBAImage) (k : Nat) (hs : img.Shaped w h) (hw : 0 < w)
    (hk : k + (c :: rest).length ≤ w * h) :
    (pickChunk c (runLength previous 62 (c :: rest)) cc previous).set img (k % w) (k / w) cc
        previous
      = .ok (max (runLength previous 62 (c :: rest)) 1, c,
          img.fill c (max (runLength previous 62 (c :: rest)) 1) k) ∧
    (c :: rest).take (max (runLength previous 62 (c :: rest)) 1)
      = List.replicate (max (runLength previous 62 (c :: rest)) 1) c ∧
    max (runLength previous 62 (c :: rest)) 1 ≤ (c :: rest).length := by
  have hxw : k % w < w := Nat.mod_lt k hw
  have hkk := div_mul_add_mod k w
  have hlen : (c :: rest).length = rest.length + 1 := rfl
  by_cases h0 : runLength previous 62 (c :: rest) = 0
  · have hyh : k / w < h := by
      rw [Nat.div_lt_iff_lt_mul hw, Nat.mul_comm]; omega
    rw [h0]
    refine ⟨?_, by simp, by simp⟩
    rw [pickChunk_set, img.SetNRGBA_eq w h _ _ hs hxw hyh, hkk]
    rfl
  · have hcp : c = previous := (runLength_cons_pos previous c 61 rest).1 h0
    have hle := runLength_le_cap previous 62 (c :: rest)
    have hll := runLength_le_length previous 62 (c :: rest)
    have hmax : max (runLength previous 62 (c :: rest)) 1 = runLength previous 62 (c :: rest) := by
      omega
    rw [hmax]
    refine ⟨?_, by rw [runLength_take, hcp], hll⟩
    have hv : (Fin.ofNat (runLength previous 62 (c :: rest)) : Byte).val
        = runLength previous 62 (c :: rest) := by
      simp only [Fin.ofNat]
      exact Nat.mod_eq_of_lt (by omega)
    simp only [pickChunk, ne_eq, h0, not_false_eq_true, if_true, chunk.set, opRun.set, hv]
    rw [opRun_set_loop_eq previous w h _ _ _ _ _ img hs (by rw [hkk]; omega), hkk, hcp]

theorem Decode_loop_done (cfg : Config) (fuel : Nat) (b : List Byte) (img : NRGBAImage)
    (cc : colorCache) (previous : NRGBA) (x y : Nat) (hy : ¬ y < cfg.Height) :
    Decode.loop cfg fuel b img cc previous x y = .ok (img, b) := by
  unfold Decode.loop
  simp [hy]

theorem Decode_loop_step (cfg : Config) (fuel : Nat) (b : List Byte) (img : NRGBAImage)
    (cc : colorCache) (previous : NRGBA) (x y : Nat) (hy : y < cfg.Height)
    (hw : cfg.Width ≠ 0) (op : chunk) (b1 : List Byte) (n : Nat) (previous1 : NRGBA)
    (img1 : NRGBAImage) (hd : decodeChunk b = .ok (op, b1))
    (hset : op.set img x y cc previous = .ok (n, previous1, img1)) :
    Decode.loop cfg (fuel + 1) b img cc previous x y
      = Decode.loop cfg fuel b1 img1 (cc.add previous1) previous1
          ((x + n) % cfg.Width) (y + (x + n) / cfg.Width) := by
  rw [Decode.loop]
  simp [hy, hd, hset, hw]

theorem Encode_loop_nil (fuel : Nat) (r : imageReader) (cc : colorCache) (previous : NRGBA)
    (hc : r.c = none) : Encode.loop fuel r cc previous = .ok [] := by
  unfold Encode.loop
  simp [hc]

theorem Encode_loop_step (fuel : Nat) (r r1 : imageReader) (cc : colorCache)
    (previous seen : NRGBA) (op : chunk) (ops : List chunk) (hc : r.c = some seen)
    (he : encodeChunk r cc previous = .ok (op, r1))
    (hl : Encode.loop fuel r1 (cc.add seen) seen = .ok ops) :
    Encode.loop (fuel + 1) r cc previous = .ok (op :: ops) := by
  rw [Encode.loop]
  simp [hc, he, hl]

theorem roundtrip_loop (m : Image) (hW : 1 ≤ m.Bounds.Dx) (hH : 1 ≤ m.Bounds.Dy) (bound : Nat) :
    ∀ (px : List NRGBA) (r : imageReader) (cc : colorCache) (previous : NRGBA),
      Reads m r px → px.length ≤ bound →
      ∃ ops, (∀ fuel, px.length ≤ fuel → Encode.loop fuel r cc previous = .ok ops) ∧
        ∀ (img : NRGBAImage) (k : Nat) (tail : List Byte) (dfuel : Nat),
          img.Shaped m.W m.H → k + px.length = m.W * m.H → ops.length ≤ dfuel →
          ∃ img1, Decode.loop ⟨m.W, m.H⟩ dfuel (ops.flatMap chunk.encode ++ tail) img cc previous
                (k % m.W) (k / m.W) = .ok (img1, tail) ∧
            img1.Shaped m.W m.H ∧ (∀ i, i < k → img1.pixelAt i = img.pixelAt i) ∧
            ∀ i, i < px.length → img1.pixelAt (k + i) = px.getD i ⟨0, 0, 0, 0⟩ := by
  have hw := m.W_pos hW
  induction bound with
  | zero =>
    intro px r cc previous hr hlen
    have hpx : px = [] := List.length_eq_zero.mp (by omega)
    subst hpx
    refine ⟨[], fun fuel _ => Encode_loop_nil fuel r cc previous (Reads_nil m r hr), ?_⟩
    intro img k tail dfuel hs hk _
    refine ⟨img, ?_, hs, fun _ _ => rfl, fun i hi => absurd hi (by simp)⟩
    apply Decode_loop_done
    simp only [List.length_nil, Nat.add_zero] at hk
    rw [hk, Nat.mul_div_cancel_left _ hw]
    exact Nat.lt_irrefl _
  | succ bound ih =>
    intro px r cc previous hr hlen
    cases px with
    | nil =>
      refine ⟨[], fun fuel _ => Encode_loop_nil fuel r cc previous (Reads_nil m r hr), ?_⟩
      intro img k tail dfuel hs hk _
      refine ⟨img, ?_, hs, fun _ _ => rfl, fun i hi => absurd hi (by simp)⟩
      apply Decode_loop_done
      simp only [List.length_nil, Nat.add_zero] at hk
      rw [hk, Nat.mul_div_cancel_left _ hw]
      exact Nat.lt_irrefl _
    | cons c rest =>
      have hc := (Reads_cons m hW hH r c rest hr).1
      have henc := encodeChunk_Reads m hW hH cc previous r c rest hr
      have hjl : max (runLength previous 62 (c :: rest)) 1 ≤ (c :: rest).length := by
        have := runLength_le_length previous 62 (c :: rest)
        simp only [List.length_cons] at this ⊢
        omega
      have hj1 : 1 ≤ max (runLength previous 62 (c :: rest)) 1 := Nat.le_max_right _ _
      have hr1 := Reads_iterate m hW hH _ r (c :: rest) hr hjl
      have hlen1 : ((c :: rest).drop (max (runLength previous 62 (c :: rest)) 1)).length ≤ bound := by
        simp only [List.length_drop, List.length_cons] at hlen ⊢
        omega
      obtain ⟨ops, hops, hdec⟩ := ih _ _ (cc.add c) c hr1 hlen1
      refine ⟨pickChunk c (runLength previous 62 (c :: rest)) cc previous :: ops, ?_, ?_⟩
      · intro fuel hf
        cases fuel with
        | zero => simp at hf
        | succ fuel =>
          refine Encode_loop_step fuel r _ cc previous c _ ops hc henc (hops fuel ?_)
          simp only [List.length_drop, List.length_cons] at hf ⊢
          omega
      · intro img k tail dfuel hs hk hdf
        cases dfuel with
        | zero => simp at hdf
        | succ dfuel =>
          obtain ⟨hset, htake, _⟩ := pickChunk_step m.W m.H cc previous c rest img k hs hw
            (Nat.le_of_eq hk)
          have hy : k / m.W < m.H := by
            rw [Nat.div_lt_iff_lt_mul hw, Nat.mul_comm]
            simp only [List.length_cons] at hk
            omega
          have hdc := decodeChunk_encode _ (pickChunk_InRange c _ cc previous
            (runLength_le_cap previous 62 (c :: rest))) (ops.flatMap chunk.encode ++ tail)
          have hstep := Decode_loop_step ⟨m.W, m.H⟩ dfuel _ img cc previous (k % m.W) (k / m.W)
            hy (Nat.pos_iff_ne_zero.mp hw) _ _ _ _ _ hdc hset
          obtain ⟨e1, e2⟩ := pos_add k (max (runLength previous 62 (c :: rest)) 1) m.W hw
          simp only [e1, e2] at hstep
          obtain ⟨img1, hd1, hs1, hlow, hhigh⟩ := hdec
            (img.fill c (max (runLength previous 62 (c :: rest)) 1) k)
            (k + max (runLength previous 62 (c :: rest)) 1) tail dfuel
            (NRGBAImage.fill_Shaped c m.W m.H _ img k hs)
            (by simp only [List.length_drop, List.length_cons] at hk hjl ⊢; omega)
            (by simp only [List.length_cons] at hdf; omega)
          refine ⟨img1, ?_, hs1, ?_, ?_⟩
          · simp only [List.flatMap_cons, List.append_assoc]
            rw [hstep]
            exact hd1
          · intro i hi
            rw [hlow i (by omega), NRGBAImage.fill_pixelAt_out c _ img k i (Or.inl hi)]
          · intro i hi
            rcases Nat.lt_or_ge i (max (runLength previous 62 (c :: rest)) 1) with hlt | hge
            · rw [hlow (k + i) (by omega),
                NRGBAImage.fill_pixelAt_in c _ img k (k + i) (by omega) (by omega)
                  (by have := hs.2.2.2
                      simp only [List.length_cons] at hk hjl
                      rw [this, ← hk]; omega)]
              have : (c :: rest).getD i ⟨0, 0, 0, 0⟩
                  = ((c :: rest).take (max (runLength previous 62 (c :: rest)) 1)).getD i
                      ⟨0, 0, 0, 0⟩ := by
                simp only [List.getD_eq_getElem?_getD, List.getElem?_take, hlt, if_true]
              rw [this, htake]
              simp [List.getD_eq_getElem?_getD, List.getElem?_replicate, hlt]
            · have := hhigh (i - max (runLength previous 62 (c :: rest)) 1)
                (by simp only [List.length_drop]; omega)
              rw [show k + max (runLength previous 62 (c :: rest)) 1
                  + (i - max (runLength previous 62 (c :: rest)) 1) = k + i by omega] at this
              rw [this]
              simp only [List.getD_eq_getElem?_getD, List.getElem?_drop]
              rw [show max (runLength previous 62 (c :: rest)) 1
                  + (i - max (runLength previous 62 (c :: rest)) 1) = i by omega]

theorem header_bytes_length (w h : Nat) (ch cs : Byte) : (header.bytes w h ch cs).length = 14 := by
  simp [header.bytes, magic, putUint32]

theorem DecodeConfig_header (w h : Nat) (hw : w < 4294967296) (hh : h < 4294967296)
    (ch cs : Byte) (rest : List Byte) :
    DecodeConfig (header.bytes w h ch cs ++ rest) = .ok (⟨w, h⟩, rest) := by
  have e1 : getUint32 (Fin.ofNat (w / 2 ^ 24)) (Fin.ofNat (w / 2 ^ 16)) (Fin.ofNat (w / 2 ^ 8))
      (Fin.ofNat w) = w := by
    simp only [getUint32, Fin.ofNat]
    omega
  have e2 : getUint32 (Fin.ofNat (h / 2 ^ 24)) (Fin.ofNat (h / 2 ^ 16)) (Fin.ofNat (h / 2 ^ 8))
      (Fin.ofNat h) = h := by
    simp only [getUint32, Fin.ofNat]
    omega
  norm_num at e1 e2
  simp [DecodeConfig, ReadFull, header.bytes, magic, putUint32, e1, e2]

theorem Encode_of_loop (m : Image) (hW : 1 ≤ m.Bounds.Dx) (hH : 1 ≤ m.Bounds.Dy)
    (hW32 : m.Bounds.Dx < 4294967296) (hH32 : m.Bounds.Dy < 4294967296) (fuel : Nat)
    (ops : List chunk)
    (h : Encode.loop fuel (newImageReader m) colorCache.new ⟨0, 0, 0, 255⟩ = .ok ops) :
    Encode fuel m = .ok (header.bytes m.W m.H 4 0 ++ ops.flatMap chunk.encode ++ endMarker) := by
  have e1 : (m.Bounds.Dx % 4294967296).toNat = m.W := by
    simp only [Image.W]; omega
  have e2 : (m.Bounds.Dy % 4294967296).toNat = m.H := by
    simp only [Image.H]; omega
  have h3 : ¬ (m.Bounds.Dx > 4294967295 ∨ m.Bounds.Dy > 4294967295) := by omega
  simp only [Encode, h3, if_false, h, e1, e2]

theorem roundtrip_aux (m : Image) (hW : 1 ≤ m.Bounds.Dx) (hH : 1 ≤ m.Bounds.Dy)
    (hW32 : m.Bounds.Dx < 4294967296) (hH32 : m.Bounds.Dy < 4294967296) :
    ∃ bs img, (∀ fuel, m.W * m.H ≤ fuel → Encode fuel m = .ok bs) ∧ Decode bs = .ok img ∧
      img.Shaped m.W m.H ∧ ∀ i, i < m.W * m.H → img.pixelAt i = m.pix i := by
  have hw32 : m.W < 4294967296 := by simp only [Image.W]; omega
  have hh32 : m.H < 4294967296 := by simp only [Image.H]; omega
  obtain ⟨ops, hops, hdec⟩ := roundtrip_loop m hW hH m.pixels.length m.pixels (newImageReader m)
    colorCache.new ⟨0, 0, 0, 255⟩ (Reads_init m hW hH) (Nat.le_refl _)
  have hshape : (NewNRGBA m.W m.H).Shaped m.W m.H := by
    refine ⟨rfl, rfl, rfl, ?_⟩
    simp [NewNRGBA, Nat.mul_assoc]
  obtain ⟨img, hd, hs, _, hpix⟩ := hdec (NewNRGBA m.W m.H) 0 endMarker
    ((ops.flatMap chunk.encode ++ endMarker).length + 1) hshape
    (by simp [Image.pixels_length])
    (by have := flatMap_encode_length ops
        simp only [List.length_append]; omega)
  refine ⟨header.bytes m.W m.H 4 0 ++ ops.flatMap chunk.encode ++ endMarker, img, ?_, ?_, hs, ?_⟩
  · intro fuel hf
    exact Encode_of_loop m hW hH hW32 hH32 fuel ops (hops fuel (by rw [m.pixels_length]; exact hf))
  · simp only [Nat.zero_mod, Nat.zero_div] at hd
    simp only [Decode, List.append_assoc, DecodeConfig_header m.W m.H hw32 hh32, hd]
    simp [ReadFull, endMarker]
  · intro i hi
    have := hpix i (by rw [m.pixels_length]; exact hi)
    rw [Nat.zero_add] at this
    rw [this]
    simp [Image.pixels, List.getD_eq_getElem?_getD, hi]

/-! ## C1: round trip -/

/-- C1. Round trip: for every raster of width `W ≥ 1` and height `H ≥ 1` (both below
`2^32`), `Encode` returns a byte stream (with any fuel of at least `W * H`
iterations), `Decode` of that stream succeeds, and the decoded raster is `W x H`
with the pixel at every position equal to the source pixel at that position. -/
theorem Decode_Encode_roundtrip (m : Image) (W H : Nat) (hDx : m.Bounds.Dx = W)
    (hDy : m.Bounds.Dy = H) (hW : 1 ≤ W) (hH : 1 ≤ H) (hW32 : W < 4294967296)
    (hH32 : H < 4294967296) :
    ∃ bs img, (∀ fuel, W * H ≤ fuel → Encode fuel m = .ok bs) ∧ Decode bs = .ok img ∧
      img.W = W ∧ img.H = H ∧
      ∀ x y : Nat, x < W → y < H →
        img.NRGBAAt x y = m.At (m.Bounds.Min.X + (x : Int)) (m.Bounds.Min.Y + (y : Int)) := by
  have eW : m.W = W := by simp [Image.W, hDx]
  have eH : m.H = H := by simp [Image.H, hDy]
  obtain ⟨bs, img, h1, h2, h3, h4⟩ := roundtrip_aux m (by omega) (by omega) (by omega) (by omega)
  rw [eW, eH] at h1 h3 h4
  refine ⟨bs, img, h1, h2, h3.1, h3.2.1, ?_⟩
  intro x y hx hy
  rw [img.NRGBAAt_eq W H x y h3 hx hy]
  have hlt : y * W + x < W * H := by
    calc y * W + x < y * W + W := by omega
      _ = (y + 1) * W := by rw [Nat.add_mul, Nat.one_mul]
      _ ≤ H * W := Nat.mul_le_mul_right W hy
      _ = W * H := Nat.mul_comm H W
  rw [h4 _ hlt]
  have e1 : (y * W + x) % W = x := by
    rw [Nat.add_comm, Nat.add_mul_mod_self_right, Nat.mod_eq_of_lt hx]
  have e2 : (y * W + x) / W = y := by
    rw [Nat.add_comm, Nat.add_mul_div_right _ _ (by omega), Nat.div_eq_of_lt hx, Nat.zero_add]
  simp only [Image.pix, eW, e1, e2]

/-- Instance of C1 at the 3 x 2 sample image. -/
theorem Decode_Encode_roundtrip_witness :
    ∃ bs img, (∀ fuel, 3 * 2 ≤ fuel → Encode fuel sampleImage = .ok bs) ∧ Decode bs = .ok img ∧
      img.W = 3 ∧ img.H = 2 ∧
      ∀ x y : Nat, x < 3 → y < 2 →
        img.NRGBAAt x y = sampleImage.At (sampleImage.Bounds.Min.X + (x : Int))
          (sampleImage.Bounds.Min.Y + (y : Int)) :=
  Decode_Encode_roundtrip sampleImage 3 2 (by decide) (by decide) (by decide) (by decide)
    (by decide) (by decide)

/-! ## C2: the end marker -/

/-- C2 (the code at the failing input). A stream with a valid header, one chunk that
fills the 1 x 1 raster, and eight `0x00` bytes in place of the end marker is decoded
successfully: the comparison in `Decode` is between the slice just read and itself. -/
theorem Decode_accepts_zero_trailer :
    Decode [0x71, 0x6f, 0x69, 0x66, 0, 0, 0, 1, 0, 0, 0, 1, 4, 0, 0x55, 0, 0, 0, 0, 0, 0, 0, 0]
      = .ok { Pix := [255, 255, 255, 255], Stride := 4, W := 1, H := 1 } := by
  decide

/-! ## C5: the magic bytes -/

/-- C5. A stream of at least 14 bytes whose first four bytes are not `qoif` is rejected
by `DecodeConfig` and by `Decode`, whatever the other bytes are. -/
theorem magic_mismatch_rejected (r : List Byte) (hlen : 14 ≤ r.length)
    (hmagic : r.take 4 ≠ [0x71, 0x6f, 0x69, 0x66]) :
    DecodeConfig r = .error (.badMagic (r.take 4)) ∧ Decode r = .error (.badMagic (r.take 4)) := by
  have h1 : DecodeConfig r = .error (.badMagic (r.take 4)) := by
    have : (r.take 14).take 4 = r.take 4 := by simp [List.take_take]
    simp only [DecodeConfig, ReadFull, hlen, if_true, this, magic, ne_eq, hmagic,
      not_false_eq_true]
  exact ⟨h1, by simp only [Decode, h1]⟩

/-- Instance of C5 at fourteen zero bytes. -/
theorem magic_mismatch_rejected_witness :
    DecodeConfig (List.replicate 14 (0 : Byte))
        = .error (.badMagic ((List.replicate 14 (0 : Byte)).take 4)) ∧
      Decode (List.replicate 14 (0 : Byte))
        = .error (.badMagic ((List.replicate 14 (0 : Byte)).take 4)) :=
  magic_mismatch_rejected (List.replicate 14 0) (by decide) (by decide)

/-! ## The chunks of the encoder loop -/

theorem Encode_loop_pickList (m : Image) (hW : 1 ≤ m.Bounds.Dx) (hH : 1 ≤ m.Bounds.Dy)
    (bound : Nat) :
    ∀ (px : List NRGBA) (r : imageReader) (cc : colorCache) (previous : NRGBA),
      Reads m r px → px.length ≤ bound → ∀ fuel, px.length ≤ fuel →
        Encode.loop fuel r cc previous = .ok (pickList bound px cc previous) := by
  induction bound with
  | zero =>
    intro px r cc previous hr hlen fuel _
    have hpx : px = [] := List.length_eq_zero.mp (by omega)
    subst hpx
    exact Encode_loop_nil fuel r cc previous (Reads_nil m r hr)
  | succ bound ih =>
    intro px r cc previous hr hlen fuel hf
    cases px with
    | nil => exact Encode_loop_nil fuel r cc previous (Reads_nil m r hr)
    | cons c rest =>
      have hc := (Reads_cons m hW hH r c rest hr).1
      have henc := encodeChunk_Reads m hW hH cc previous r c rest hr
      have hll := runLength_le_length previous 62 (c :: rest)
      have hjl : max (runLength previous 62 (c :: rest)) 1 ≤ (c :: rest).length := by
        simp only [List.length_cons] at hll ⊢
        omega
      have hr1 := Reads_iterate m hW hH _ r (c :: rest) hr hjl
      cases fuel with
      | zero => simp at hf
      | succ fuel =>
        refine Encode_loop_step fuel r _ cc previous c _ _ hc henc (ih _ _ _ _ hr1 ?_ fuel ?_)
        · simp only [List.length_drop, List.length_cons] at hlen ⊢
          omega
        · simp only [List.length_drop, List.length_cons] at hf ⊢
          omega

theorem pickList_InRange (bound : Nat) :
    ∀ (px : List NRGBA) (cc : colorCache) (previous : NRGBA) (op : chunk),
      op ∈ pickList bound px cc previous → op.InRange := by
  induction bound with
  | zero => intro px cc previous op h; simp [pickList] at h
  | succ bound ih =>
    intro px cc previous op h
    cases px with
    | nil => simp [pickList] at h
    | cons c rest =>
      simp only [pickList, List.mem_cons] at h
      rcases h with h | h
      · rw [h]
        exact pickChunk_InRange c _ cc previous (runLength_le_cap previous 62 (c :: rest))
      · exact ih _ _ _ op h

theorem Encode_loop_total (fuel : Nat) :
    ∀ (r : imageReader) (cc : colorCache) (previous : NRGBA),
      Encode.loop fuel r cc previous = .outOfFuel ∨
        ∃ ops, Encode.loop fuel r cc previous = .ok ops := by
  induction fuel with
  | zero =>
    intro r cc previous
    cases hc : r.c with
    | none => exact Or.inr ⟨[], Encode_loop_nil 0 r cc previous hc⟩
    | some c => left; rw [Encode.loop]; simp [hc]
  | succ fuel ih =>
    intro r cc previous
    cases hc : r.c with
    | none => exact Or.inr ⟨[], Encode_loop_nil _ r cc previous hc⟩
    | some c =>
      obtain ⟨n, _, _, he⟩ := encodeChunk_iterate cc previous r c hc
      rcases ih (imageReader.next^[max n 1] r) (cc.add c) c with h | ⟨ops, h⟩
      · left; rw [Encode.loop]; simp [hc, he, h]
      · exact Or.inr ⟨_, Encode_loop_step fuel r _ cc previous c _ ops hc he h⟩

/-! ## C7: run length range -/

set_option maxRecDepth 100000 in
theorem run_byte_value : ∀ n : Byte, 1 ≤ n.val → n.val ≤ 62 →
    (opTagRun ||| (n - 1)).val = 192 + (n.val - 1) := by
  decide

/-- C7. For every non-empty raster the encoder loop returns its chunks, and every Run
chunk among them has a run length between 1 and 62; its single byte is
`0xC0 | (run_length - 1)`, has the value `192 + (run_length - 1)`, lies in `0xC0..0xFD`
and so is neither `0xFE` nor `0xFF`. -/
theorem run_length_range (m : Image) (W H : Nat) (hDx : m.Bounds.Dx = W)
    (hDy : m.Bounds.Dy = H) (hW : 1 ≤ W) (hH : 1 ≤ H) (hW32 : W < 4294967296)
    (hH32 : H < 4294967296) :
    ∃ ops, (∀ fuel, W * H ≤ fuel →
        Encode.loop fuel (newImageReader m) colorCache.new ⟨0, 0, 0, 255⟩ = .ok ops ∧
        Encode fuel m = .ok (header.bytes W H 4 0 ++ ops.flatMap chunk.encode ++ endMarker)) ∧
      ∀ n : Byte, chunk.opRun n ∈ ops →
        1 ≤ n.val ∧ n.val ≤ 62 ∧
        ∃ b : Byte, chunk.encode (.opRun n) = [b] ∧ b = 0xC0 ||| (n - 1) ∧
          b.val = 192 + (n.val - 1) ∧ 0xC0 ≤ b.val ∧ b.val ≤ 0xFD ∧ b ≠ 0xFE ∧ b ≠ 0xFF := by
  have eW : m.W = W := by simp [Image.W, hDx]
  have eH : m.H = H := by simp [Image.H, hDy]
  have hW1 : 1 ≤ m.Bounds.Dx := by omega
  have hH1 : 1 ≤ m.Bounds.Dy := by omega
  refine ⟨pickList m.pixels.length m.pixels colorCache.new ⟨0, 0, 0, 255⟩, ?_, ?_⟩
  · intro fuel hf
    have hl := Encode_loop_pickList m hW1 hH1 m.pixels.length m.pixels (newImageReader m)
      colorCache.new ⟨0, 0, 0, 255⟩ (Reads_init m hW1 hH1) (Nat.le_refl _) fuel
      (by rw [m.pixels_length, eW, eH]; exact hf)
    refine ⟨hl, ?_⟩
    have := Encode_of_loop m hW1 hH1 (by omega) (by omega) fuel _ hl
    rw [eW, eH] at this
    exact this
  · intro n hn
    have hr := pickList_InRange _ _ _ _ _ hn
    obtain ⟨h1, h2⟩ := hr
    have hv := run_byte_value n h1 h2
    refine ⟨h1, h2, opTagRun ||| (n - 1), rfl, rfl, hv, ?_, ?_, ?_, ?_⟩
    · rw [hv]; omega
    · rw [hv]; omega
    · intro h
      rw [h] at hv
      have : ((0xFE : Byte) : Nat) = 254 := rfl
      omega
    · intro h
      rw [h] at hv
      have : ((0xFF : Byte) : Nat) = 255 := rfl
      omega

/-- Instance of C7 at the 63 x 1 image of equal pixels. -/
theorem run_length_range_witness :
    ∃ ops, (∀ fuel, 63 * 1 ≤ fuel →
        Encode.loop fuel (newImageReader run63Image) colorCache.new ⟨0, 0, 0, 255⟩ = .ok ops ∧
        Encode fuel run63Image
          = .ok (header.bytes 63 1 4 0 ++ ops.flatMap chunk.encode ++ endMarker)) ∧
      ∀ n : Byte, chunk.opRun n ∈ ops →
        1 ≤ n.val ∧ n.val ≤ 62 ∧
        ∃ b : Byte, chunk.encode (.opRun n) = [b] ∧ b = 0xC0 ||| (n - 1) ∧
          b.val = 192 + (n.val - 1) ∧ 0xC0 ≤ b.val ∧ b.val ≤ 0xFD ∧ b ≠ 0xFE ∧ b ≠ 0xFF :=
  run_length_range run63Image 63 1 (by decide) (by decide) (by decide) (by decide) (by decide)
    (by decide)

/-! ## C8: a run is split at 62 -/

theorem pickChunk_eq_opRun (c : NRGBA) (n : Nat) (cc : colorCache) (previous : NRGBA) (k : Byte)
    (h : pickChunk c n cc previous = .opRun k) : n ≠ 0 := by
  intro h0
  subst h0
  unfold pickChunk at h
  split_ifs at h with h1
  exact h1 rfl

set_option maxRecDepth 100000 in
/-- C8. When `encodeChunk` has written a Run chunk of length 62 for the pixel `seen` and
the reader's next pixel still equals `seen`, then `seen` is the previous pixel, it is
an exact hit of the cache as the loop updates it, and the next call of `encodeChunk`
(with that cache and previous pixel) nevertheless returns a Run chunk, of length 1 to
62.  The 63 x 1 raster of pixels `(0, 0, 0, 255)` is encoded as header, `0xFD`, `0xC0`,
end marker. -/
theorem run_split_at_62 :
    (∀ (r r1 : imageReader) (cc : colorCache) (previous seen : NRGBA),
      r.c = some seen → encodeChunk r cc previous = .ok (.opRun 62, r1) → r1.c = some seen →
        seen = previous ∧ (cc.add seen).get seen = ((colorCache.idx seen).val : Int) ∧
        ∃ (n : Byte) (r2 : imageReader),
          encodeChunk r1 (cc.add seen) seen = .ok (.opRun n, r2) ∧ 1 ≤ n.val ∧ n.val ≤ 62) ∧
    Encode 2 run63Image = .ok (header.bytes 63 1 4 0 ++ [0xFD, 0xC0] ++ endMarker) := by
  refine ⟨?_, by decide⟩
  intro r r1 cc previous seen hc h62 hnext
  obtain ⟨n, _, hn, he⟩ := encodeChunk_iterate cc previous r seen hc
  rw [he] at h62
  have hp : pickChunk seen n cc previous = .opRun 62 := by
    injection h62 with h
    exact (Prod.mk.inj h).1
  have hsp : seen = previous := hn.1 (pickChunk_eq_opRun seen n cc previous 62 hp)
  refine ⟨hsp, by simp [colorCache.get, colorCache.add], ?_⟩
  obtain ⟨n1, hle, hn1, he1⟩ := encodeChunk_iterate (cc.add seen) seen r1 seen hnext
  have hne : n1 ≠ 0 := hn1.2 rfl
  refine ⟨Fin.ofNat n1, imageReader.next^[max n1 1] r1, ?_, ?_, ?_⟩
  · rw [he1]
    simp [pickChunk, hne]
  · simp only [Fin.ofNat]
    have : n1 % 256 = n1 := Nat.mod_eq_of_lt (by omega)
    simp only [Nat.succ_eq_add_one, Nat.reduceAdd, this]
    omega
  · simp only [Fin.ofNat]
    have : n1 % 256 = n1 := Nat.mod_eq_of_lt (by omega)
    simp only [Nat.succ_eq_add_one, Nat.reduceAdd, this]
    omega

/-- Instance of C8 at the reader of the 63 x 1 image of equal pixels. -/
theorem run_split_at_62_witness :
    (newImageReader run63Image).c = some ⟨0, 0, 0, 255⟩ ∧
    encodeChunk (newImageReader run63Image) colorCache.new ⟨0, 0, 0, 255⟩
      = .ok (.opRun 62, imageReader.next^[62] (newImageReader run63Image)) ∧
    (imageReader.next^[62] (newImageReader run63Image)).c = some ⟨0, 0, 0, 255⟩ ∧
    ∃ (n : Byte) (r2 : imageReader),
      encodeChunk (imageReader.next^[62] (newImageReader run63Image))
        (colorCache.new.add ⟨0, 0, 0, 255⟩) ⟨0, 0, 0, 255⟩ = .ok (.opRun n, r2) ∧
      1 ≤ n.val ∧ n.val ≤ 62 :=
  ⟨rfl, rfl, rfl,
    (run_split_at_62.1 (newImageReader run63Image)
      (imageReader.next^[62] (newImageReader run63Image)) colorCache.new ⟨0, 0, 0, 255⟩
      ⟨0, 0, 0, 255⟩ rfl rfl rfl).2.2⟩

/-! ## C9: Index only on an exact hit -/

theorem pickChunk_eq_opIndex (c : NRGBA) (n : Nat) (cc : colorCache) (previous : NRGBA)
    (i : Byte) (h : pickChunk c n cc previous = .opIndex i) :
    cc (colorCache.idx c) = c ∧ i.val = (colorCache.idx c).val := by
  unfold pickChunk at h
  split_ifs at h with h1 h2
  injection h with h
  refine ⟨h2, ?_⟩
  rw [← h]
  have := (colorCache.idx c).isLt
  simp only [uint8]
  omega

/-- C9. `colorCache.get` returns the slot index of `c` when the slot at the index of
`c` holds a colour equal to `c`, and `-1` otherwise; `(64, 0, 0, 255)` has the slot
index of `(0, 0, 0, 255)` and is a miss against it; and `encodeChunk` returns an Index
chunk with index `i` only when slot `i` of the cache holds the current pixel. -/
theorem index_only_on_exact_hit (cc : colorCache) (c : NRGBA) :
    (cc (colorCache.idx c) = c → cc.get c = ((colorCache.idx c).val : Int)) ∧
    (cc (colorCache.idx c) ≠ c → cc.get c = -1) ∧
    (colorCache.idx ⟨64, 0, 0, 255⟩ = colorCache.idx ⟨0, 0, 0, 255⟩ ∧
      (colorCache.new.add ⟨0, 0, 0, 255⟩).get ⟨64, 0, 0, 255⟩ = -1 ∧
      (colorCache.new.add ⟨0, 0, 0, 255⟩).get ⟨0, 0, 0, 255⟩ = 53) ∧
    ∀ (r r1 : imageReader) (previous : NRGBA) (i : Byte),
      r.c = some c → encodeChunk r cc previous = .ok (.opIndex i, r1) →
        ∃ h : i.val < 64, cc ⟨i.val, h⟩ = c := by
  refine ⟨fun h => by simp [colorCache.get, h], fun h => by simp [colorCache.get, h],
    ⟨by decide, by decide, by decide⟩, ?_⟩
  intro r r1 previous i hc he
  obtain ⟨n, _, _, he1⟩ := encodeChunk_iterate cc previous r c hc
  rw [he1] at he
  have hp : pickChunk c n cc previous = .opIndex i := by
    injection he with h
    exact (Prod.mk.inj h).1
  obtain ⟨h1, h2⟩ := pickChunk_eq_opIndex c n cc previous i hp
  have hlt : i.val < 64 := by rw [h2]; exact (colorCache.idx c).isLt
  refine ⟨hlt, ?_⟩
  have : (⟨i.val, hlt⟩ : Fin 64) = colorCache.idx c := Fin.ext h2
  rw [this, h1]

/-! ## C10: applicability of Diff and Luma -/

theorem int8_sub (a b : Byte) : int8 (a - b) = sdelta a b := by
  simp only [int8, sdelta]
  split_ifs <;> omega

theorem sdelta_range (a b : Byte) : -128 ≤ sdelta a b ∧ sdelta a b ≤ 127 := by
  simp only [sdelta]
  split_ifs <;> omega

theorem wrap8_sub_range (a g lo hi : Int) (ha : -128 ≤ a ∧ a ≤ 127) (hg : -32 ≤ g ∧ g ≤ 31)
    (hlo : -96 ≤ lo) (hhi : hi ≤ 95) :
    (lo ≤ wrap8 (a - g) ∧ wrap8 (a - g) ≤ hi) ↔ (lo ≤ a - g ∧ a - g ≤ hi) := by
  simp only [wrap8]
  omega

theorem wrap8_id (z : Int) (h : -128 ≤ z ∧ z ≤ 127) : wrap8 z = z := by
  simp only [wrap8]
  omega

/-- C10. With `dX = sdelta c.X p.X` (the difference modulo 256 read as signed 8-bit),
`newOpDiff` yields a chunk exactly when the alphas agree and `dR`, `dG`, `dB` lie in
`[-2, 1]`, and the chunk then carries these deltas; `newOpLuma` yields a chunk exactly
when the alphas agree, `dG` lies in `[-32, 31]` and the integer differences `dR - dG`
and `dB - dG` lie in `[-8, 7]`, and the chunk then carries `dG`, `dR - dG`, `dB - dG`. -/
theorem diff_luma_applicability (r : imageReader) (c previous : NRGBA) (hc : r.c = some c) :
    (((∃ op r1, newOpDiff r previous = .ok (some op, r1)) ↔
        (c.A = previous.A ∧
          (-2 ≤ sdelta c.R previous.R ∧ sdelta c.R previous.R ≤ 1) ∧
          (-2 ≤ sdelta c.G previous.G ∧ sdelta c.G previous.G ≤ 1) ∧
          (-2 ≤ sdelta c.B previous.B ∧ sdelta c.B previous.B ≤ 1))) ∧
      newOpDiff r previous =
        if c.A = previous.A ∧
          (-2 ≤ sdelta c.R previous.R ∧ sdelta c.R previous.R ≤ 1) ∧
          (-2 ≤ sdelta c.G previous.G ∧ sdelta c.G previous.G ≤ 1) ∧
          (-2 ≤ sdelta c.B previous.B ∧ sdelta c.B previous.B ≤ 1) then
          .ok (some (.opDiff (sdelta c.R previous.R) (sdelta c.G previous.G)
            (sdelta c.B previous.B)), r.next)
        else .ok (none, r)) ∧
    (((∃ op r1, newOpLuma r previous = .ok (some op, r1)) ↔
        (c.A = previous.A ∧
          (-32 ≤ sdelta c.G previous.G ∧ sdelta c.G previous.G ≤ 31) ∧
          (-8 ≤ sdelta c.R previous.R - sdelta c.G previous.G ∧
            sdelta c.R previous.R - sdelta c.G previous.G ≤ 7) ∧
          (-8 ≤ sdelta c.B previous.B - sdelta c.G previous.G ∧
            sdelta c.B previous.B - sdelta c.G previous.G ≤ 7))) ∧
      newOpLuma r previous =
        if c.A = previous.A ∧
          (-32 ≤ sdelta c.G previous.G ∧ sdelta c.G previous.G ≤ 31) ∧
          (-8 ≤ sdelta c.R previous.R - sdelta c.G previous.G ∧
            sdelta c.R previous.R - sdelta c.G previous.G ≤ 7) ∧
          (-8 ≤ sdelta c.B previous.B - sdelta c.G previous.G ∧
            sdelta c.B previous.B - sdelta c.G previous.G ≤ 7) then
          .ok (some (.opLuma (sdelta c.G previous.G)
            (sdelta c.R previous.R - sdelta c.G previous.G)
            (sdelta c.B previous.B - sdelta c.G previous.G)), r.next)
        else .ok (none, r)) := by
  have hD : newOpDiff r previous =
      if c.A = previous.A ∧
        (-2 ≤ sdelta c.R previous.R ∧ sdelta c.R previous.R ≤ 1) ∧
        (-2 ≤ sdelta c.G previous.G ∧ sdelta c.G previous.G ≤ 1) ∧
        (-2 ≤ sdelta c.B previous.B ∧ sdelta c.B previous.B ≤ 1) then
        .ok (some (.opDiff (sdelta c.R previous.R) (sdelta c.G previous.G)
          (sdelta c.B previous.B)), r.next)
      else .ok (none, r) := by
    simp only [newOpDiff, hc, int8_sub]
    split_ifs <;> first | rfl | (exfalso; omega) | (exfalso; simp_all)
  have hL : newOpLuma r previous =
      if c.A = previous.A ∧
        (-32 ≤ sdelta c.G previous.G ∧ sdelta c.G previous.G ≤ 31) ∧
        (-8 ≤ sdelta c.R previous.R - sdelta c.G previous.G ∧
          sdelta c.R previous.R - sdelta c.G previous.G ≤ 7) ∧
        (-8 ≤ sdelta c.B previous.B - sdelta c.G previous.G ∧
          sdelta c.B previous.B - sdelta c.G previous.G ≤ 7) then
        .ok (some (.opLuma (sdelta c.G previous.G)
          (sdelta c.R previous.R - sdelta c.G previous.G)
          (sdelta c.B previous.B - sdelta c.G previous.G)), r.next)
      else .ok (none, r) := by
    have hr := sdelta_range c.R previous.R
    have hg := sdelta_range c.G previous.G
    have hb := sdelta_range c.B previous.B
    simp only [newOpLuma, hc, int8_sub]
    by_cases hA : c.A = previous.A
    · by_cases hG : -32 ≤ sdelta c.G previous.G ∧ sdelta c.G previous.G ≤ 31
      · have h1 := wrap8_sub_range (sdelta c.R previous.R) (sdelta c.G previous.G) (-8) 7 hr hG
          (by decide) (by decide)
        have h2 := wrap8_sub_range (sdelta c.B previous.B) (sdelta c.G previous.G) (-8) 7 hb hG
          (by decide) (by decide)
        by_cases hR : -8 ≤ sdelta c.R previous.R - sdelta c.G previous.G ∧
            sdelta c.R previous.R - sdelta c.G previous.G ≤ 7
        · by_cases hB : -8 ≤ sdelta c.B previous.B - sdelta c.G previous.G ∧
              sdelta c.B previous.B - sdelta c.G previous.G ≤ 7
          · have e1 := wrap8_id (sdelta c.R previous.R - sdelta c.G previous.G) (by omega)
            have e2 := wrap8_id (sdelta c.B previous.B - sdelta c.G previous.G) (by omega)
            have n1 : ¬ (sdelta c.G previous.G < -32 ∨ sdelta c.G previous.G > 31) := by omega
            have n2 : ¬ (sdelta c.R previous.R - sdelta c.G previous.G < -8 ∨
                sdelta c.R previous.R - sdelta c.G previous.G > 7) := by omega
            have n3 : ¬ (sdelta c.B previous.B - sdelta c.G previous.G < -8 ∨
                sdelta c.B previous.B - sdelta c.G previous.G > 7) := by omega
            simp only [e1, e2, hA, hG, hR, hB, n1, n2, n3, and_self, ne_eq, not_true_eq_false,
              if_true, if_false]
          · have hB' : ¬ (-8 ≤ wrap8 (sdelta c.B previous.B - sdelta c.G previous.G) ∧
                wrap8 (sdelta c.B previous.B - sdelta c.G previous.G) ≤ 7) :=
              fun h => hB (h2.1 h)
            have n3 : wrap8 (sdelta c.B previous.B - sdelta c.G previous.G) < -8 ∨
                wrap8 (sdelta c.B previous.B - sdelta c.G previous.G) > 7 := by omega
            simp only [hA, hG, hR, hB, n3, and_self, and_false, ne_eq, not_true_eq_false,
              if_true, if_false, ite_self]
        · have hR' : ¬ (-8 ≤ wrap8 (sdelta c.R previous.R - sdelta c.G previous.G) ∧
              wrap8 (sdelta c.R previous.R - sdelta c.G previous.G) ≤ 7) :=
            fun h => hR (h1.1 h)
          have n2 : wrap8 (sdelta c.R previous.R - sdelta c.G previous.G) < -8 ∨
              wrap8 (sdelta c.R previous.R - sdelta c.G previous.G) > 7 := by omega
          simp only [hA, hG, hR, n2, and_self, and_false, false_and, ne_eq, not_true_eq_false,
            if_true, if_false, ite_self]
      · have n1 : sdelta c.G previous.G < -32 ∨ sdelta c.G previous.G > 31 := by omega
        simp only [hA, hG, n1, and_false, false_and, ne_eq, not_true_eq_false, if_true, if_false]
    · simp only [hA, false_and, ne_eq, not_false_eq_true, if_true, if_false]
  refine ⟨⟨?_, hD⟩, ⟨?_, hL⟩⟩
  · rw [hD]
    split_ifs with h
    · exact ⟨fun _ => h, fun _ => ⟨_, _, rfl⟩⟩
    · refine ⟨fun ⟨op, r1, he⟩ => ?_, fun h' => absurd h' h⟩
      injection he with he
      have := (Prod.mk.inj he).1
      exact absurd this (by simp)
  · rw [hL]
    split_ifs with h
    · exact ⟨fun _ => h, fun _ => ⟨_, _, rfl⟩⟩
    · refine ⟨fun ⟨op, r1, he⟩ => ?_, fun h' => absurd h' h⟩
      injection he with he
      have := (Prod.mk.inj he).1
      exact absurd this (by simp)

/-- Instance of C10 at the first pixel of the sample image. -/
theorem diff_luma_applicability_witness :
    (newImageReader sampleImage).c = some ⟨0, 0, 7, 255⟩ ∧
    newOpDiff (newImageReader sampleImage) ⟨0, 0, 0, 255⟩ =
      (if (⟨0, 0, 7, 255⟩ : NRGBA).A = (⟨0, 0, 0, 255⟩ : NRGBA).A ∧
          (-2 ≤ sdelta 0 0 ∧ sdelta 0 0 ≤ 1) ∧ (-2 ≤ sdelta 0 0 ∧ sdelta 0 0 ≤ 1) ∧
          (-2 ≤ sdelta 7 0 ∧ sdelta 7 0 ≤ 1) then
        .ok (some (.opDiff (sdelta 0 0) (sdelta 0 0) (sdelta 7 0)),
          (newImageReader sampleImage).next)
      else .ok (none, newImageReader sampleImage)) :=
  ⟨rfl, (diff_luma_applicability (newImageReader sampleImage) ⟨0, 0, 7, 255⟩ ⟨0, 0, 0, 255⟩
    rfl).1.2⟩

/-! ## C6: header and trailer -/

theorem next_of_bottom (r : imageReader) (h : r.b.Max.Y ≤ r.p.Y) :
    r.next.c = none ∧ r.next.b = r.b ∧ r.next.b.Max.Y ≤ r.next.p.Y := by
  by_cases hx : r.p.X + 1 = r.b.Max.X
  · have hy : r.b.Max.Y ≤ r.p.Y + 1 := by omega
    refine ⟨?_, ?_, ?_⟩ <;> simp [imageReader.next, hx, hy]
  · refine ⟨?_, ?_, ?_⟩ <;> simp [imageReader.next, hx, h]

theorem iterate_next_of_bottom (j : Nat) :
    ∀ r : imageReader, r.b.Max.Y ≤ r.p.Y → (imageReader.next^[j + 1] r).c = none := by
  induction j with
  | zero => intro r h; exact (next_of_bottom r h).1
  | succ j ih =>
    intro r h
    obtain ⟨_, h2, h3⟩ := next_of_bottom r h
    rw [Function.iterate_succ, Function.comp_apply]
    exact ih r.next h3

theorem Encode_loop_flat (m : Image) (hH : m.Bounds.Dy ≤ 0) (fuel : Nat) (cc : colorCache)
    (previous : NRGBA) :
    ∃ op, Encode.loop (fuel + 1) (newImageReader m) cc previous = .ok [op] := by
  have hc : (newImageReader m).c = some (m.At m.Bounds.Min.X m.Bounds.Min.Y) := rfl
  obtain ⟨n, _, _, he⟩ := encodeChunk_iterate cc previous (newImageReader m) _ hc
  have hb : (newImageReader m).b.Max.Y ≤ (newImageReader m).p.Y := by
    simp only [newImageReader, Rectangle.Dy] at hH ⊢
    omega
  have hnone : (imageReader.next^[max n 1] (newImageReader m)).c = none := by
    have : max n 1 = (max n 1 - 1) + 1 := by omega
    rw [this]
    exact iterate_next_of_bottom _ _ hb
  exact ⟨_, Encode_loop_step fuel _ _ cc previous _ _ [] hc he
    (Encode_loop_nil fuel _ _ _ hnone)⟩

theorem Encode_shape (m : Image) (W H : Nat) (hDx : m.Bounds.Dx = W) (hDy : m.Bounds.Dy = H)
    (hW32 : W ≤ 4294967295) (hH32 : H ≤ 4294967295) (fuel : Nat) :
    (∀ ops, Encode.loop fuel (newImageReader m) colorCache.new ⟨0, 0, 0, 255⟩ = .ok ops →
      Encode fuel m = .ok (header.bytes W H 4 0 ++ ops.flatMap chunk.encode ++ endMarker)) ∧
    (Encode.loop fuel (newImageReader m) colorCache.new ⟨0, 0, 0, 255⟩ = .outOfFuel →
      Encode fuel m = .outOfFuel) := by
  have e1 : (m.Bounds.Dx % 4294967296).toNat = W := by omega
  have e2 : (m.Bounds.Dy % 4294967296).toNat = H := by omega
  have h3 : ¬ (m.Bounds.Dx > 4294967295 ∨ m.Bounds.Dy > 4294967295) := by omega
  constructor
  · intro ops h
    simp only [Encode, h3, if_false, e1, e2, h]
  · intro h
    simp only [Encode, h3, if_false, e1, e2, h]

/-- C6. For every raster of width `W` and height `H`, both at most `2^32 - 1`: whenever
`Encode` returns it returns bytes, and these begin with the 14 bytes `q o i f`, `W` and `H`
as big-endian 32-bit numbers, `0x04`, `0x00`, and end with the 8 bytes
`00 00 00 00 00 00 00 01`; and it does return when the raster is non-empty and the fuel
covers `W * H` iterations, or when `H = 0` and the fuel covers one iteration. -/
theorem header_trailer_layout (m : Image) (W H : Nat) (hDx : m.Bounds.Dx = W)
    (hDy : m.Bounds.Dy = H) (hW32 : W ≤ 4294967295) (hH32 : H ≤ 4294967295) (fuel : Nat) :
    (Encode fuel m = .outOfFuel ∨ ∃ body, Encode fuel m = .ok
      ([0x71, 0x6f, 0x69, 0x66,
        Fin.ofNat (W / 2 ^ 24), Fin.ofNat (W / 2 ^ 16), Fin.ofNat (W / 2 ^ 8), Fin.ofNat W,
        Fin.ofNat (H / 2 ^ 24), Fin.ofNat (H / 2 ^ 16), Fin.ofNat (H / 2 ^ 8), Fin.ofNat H,
        4, 0] ++ body ++ [0, 0, 0, 0, 0, 0, 0, 1])) ∧
    (((1 ≤ W ∧ 1 ≤ H ∧ W * H ≤ fuel) ∨ (H = 0 ∧ 1 ≤ fuel)) → Encode fuel m ≠ .outOfFuel) := by
  have hs := Encode_shape m W H hDx hDy hW32 hH32 fuel
  have hhdr : header.bytes W H 4 0 = [0x71, 0x6f, 0x69, 0x66,
      Fin.ofNat (W / 2 ^ 24), Fin.ofNat (W / 2 ^ 16), Fin.ofNat (W / 2 ^ 8), Fin.ofNat W,
      Fin.ofNat (H / 2 ^ 24), Fin.ofNat (H / 2 ^ 16), Fin.ofNat (H / 2 ^ 8), Fin.ofNat H,
      4, 0] := rfl
  constructor
  · rcases Encode_loop_total fuel (newImageReader m) colorCache.new ⟨0, 0, 0, 255⟩ with h | ⟨ops, h⟩
    · left; exact hs.2 h
    · right
      refine ⟨ops.flatMap chunk.encode, ?_⟩
      rw [hs.1 ops h, hhdr]
      rfl
  · intro hcase
    rcases hcase with ⟨h1, h2, h3⟩ | ⟨h1, h2⟩
    · have eW : m.W = W := by simp [Image.W, hDx]
      have eH : m.H = H := by simp [Image.H, hDy]
      have hl := Encode_loop_pickList m (by omega) (by omega) m.pixels.length m.pixels
        (newImageReader m) colorCache.new ⟨0, 0, 0, 255⟩ (Reads_init m (by omega) (by omega))
        (Nat.le_refl _) fuel (by rw [m.pixels_length, eW, eH]; exact h3)
      rw [hs.1 _ hl]
      exact fun h => by cases h
    · obtain ⟨op, hop⟩ := Encode_loop_flat m (by omega) (fuel - 1) colorCache.new ⟨0, 0, 0, 255⟩
      have : fuel - 1 + 1 = fuel := by omega
      rw [this] at hop
      rw [hs.1 _ hop]
      exact fun h => by cases h

/-- Instance of C6 at the 3 x 2 sample image with six units of fuel. -/
theorem header_trailer_layout_witness :
    (Encode 6 sampleImage = .outOfFuel ∨ ∃ body, Encode 6 sampleImage = .ok
      ([0x71, 0x6f, 0x69, 0x66,
        Fin.ofNat (3 / 2 ^ 24), Fin.ofNat (3 / 2 ^ 16), Fin.ofNat (3 / 2 ^ 8), Fin.ofNat 3,
        Fin.ofNat (2 / 2 ^ 24), Fin.ofNat (2 / 2 ^ 16), Fin.ofNat (2 / 2 ^ 8), Fin.ofNat 2,
        4, 0] ++ body ++ [0, 0, 0, 0, 0, 0, 0, 1])) ∧
    (((1 ≤ 3 ∧ 1 ≤ 2 ∧ 3 * 2 ≤ 6) ∨ (2 = 0 ∧ 1 ≤ 6)) → Encode 6 sampleImage ≠ .outOfFuel) :=
  header_trailer_layout sampleImage 3 2 (by decide) (by decide) (by decide) (by decide) 6

/-- Instance of C9: a colour just added to the cache is a hit at its slot index. -/
theorem index_only_on_exact_hit_witness :
    (colorCache.new.add ⟨0, 0, 0, 255⟩).get ⟨0, 0, 0, 255⟩
      = ((colorCache.idx ⟨0, 0, 0, 255⟩).val : Int) :=
  (index_only_on_exact_hit (colorCache.new.add ⟨0, 0, 0, 255⟩) ⟨0, 0, 0, 255⟩).1 (by decide)

/-! ## C3: the encoder against the reference encoder -/

theorem idx_val (c : NRGBA) : (colorCache.idx c).val = Spec.hash c % 64 := by
  have h := Fin.mod_val (c.R * 3 + c.G * 5 + c.B * 7 + c.A * 11) 64
  have h64 : ((64 : Byte) : Nat) = 64 := rfl
  simp only [colorCache.idx, Spec.hash]
  rw [h, h64]
  congr 1
  omega

set_option maxRecDepth 100000 in
theorem index_byte_value : ∀ i : Byte, (opTagIndex ||| i).val = i.val := by
  decide

theorem diff_byte_value (dr dg db : Int) (h1 : -2 ≤ dr ∧ dr ≤ 1) (h3 : -2 ≤ dg ∧ dg ≤ 1)
    (h5 : -2 ≤ db ∧ db ≤ 1) :
    (opDiff.encode dr dg db).map Fin.val
      = [64 + ((dr + 2) * 16 + (dg + 2) * 4 + (db + 2)).toNat] := by
  obtain ⟨h1, h2⟩ := h1
  obtain ⟨h3, h4⟩ := h3
  obtain ⟨h5, h6⟩ := h5
  interval_cases dr <;> interval_cases dg <;> interval_cases db <;> decide

theorem luma_byte0_value (dg : Int) (h : -32 ≤ dg ∧ dg ≤ 31) :
    (opTagLuma ||| uint8 (wrap8 (dg + 32))).val = 128 + (dg + 32).toNat := by
  obtain ⟨h1, h2⟩ := h
  interval_cases dg <;> decide

theorem luma_byte1_value (x y : Int) (h1 : -8 ≤ x ∧ x ≤ 7) (h3 : -8 ≤ y ∧ y ≤ 7) :
    ((uint8 (wrap8 (x + 8)) <<< 4) ||| uint8 (wrap8 (y + 8))).val
      = ((x + 8) * 16 + (y + 8)).toNat := by
  obtain ⟨h1, h2⟩ := h1
  obtain ⟨h3, h4⟩ := h3
  interval_cases x <;> interval_cases y <;> decide

/-- The chunk selected by the code, with the conditions and fields of Diff and Luma
expressed by the signed deltas of the specification. -/
theorem pickChunk_zero (c : NRGBA) (cc : colorCache) (previous : NRGBA) :
    pickChunk c 0 cc previous =
      if cc (colorCache.idx c) = c then .opIndex (uint8 ((colorCache.idx c).val : Int))
      else if Spec.diffOk c previous then
        .opDiff (sdelta c.R previous.R) (sdelta c.G previous.G) (sdelta c.B previous.B)
      else if Spec.lumaOk c previous then
        .opLuma (sdelta c.G previous.G) (sdelta c.R previous.R - sdelta c.G previous.G)
          (sdelta c.B previous.B - sdelta c.G previous.G)
      else if c.A = previous.A then .opRGB { R := c.R, G := c.G, B := c.B, A := 0 }
      else .opRGBA c := by
  have hr := sdelta_range c.R previous.R
  have hb := sdelta_range c.B previous.B
  simp only [pickChunk, ne_eq, not_true_eq_false, if_false, int8_sub, Spec.diffOk, Spec.lumaOk]
  by_cases hi : cc (colorCache.idx c) = c
  · simp only [hi, if_true]
  · simp only [hi, if_false]
    by_cases hd : c.A = previous.A ∧
        (-2 ≤ sdelta c.R previous.R ∧ sdelta c.R previous.R ≤ 1) ∧
        (-2 ≤ sdelta c.G previous.G ∧ sdelta c.G previous.G ≤ 1) ∧
        (-2 ≤ sdelta c.B previous.B ∧ sdelta c.B previous.B ≤ 1)
    · simp only [hd, and_self, if_true]
    · simp only [hd, if_false]
      by_cases hG : -32 ≤ sdelta c.G previous.G ∧ sdelta c.G previous.G ≤ 31
      · have h1 := wrap8_sub_range (sdelta c.R previous.R) (sdelta c.G previous.G) (-8) 7 hr hG
          (by decide) (by decide)
        have h2 := wrap8_sub_range (sdelta c.B previous.B) (sdelta c.G previous.G) (-8) 7 hb hG
          (by decide) (by decide)
        simp only [h1, h2]
        by_cases hl : c.A = previous.A ∧
            (-32 ≤ sdelta c.G previous.G ∧ sdelta c.G previous.G ≤ 31) ∧
            (-8 ≤ sdelta c.R previous.R - sdelta c.G previous.G ∧
              sdelta c.R previous.R - sdelta c.G previous.G ≤ 7) ∧
            (-8 ≤ sdelta c.B previous.B - sdelta c.G previous.G ∧
              sdelta c.B previous.B - sdelta c.G previous.G ≤ 7)
        · have e1 := wrap8_id (sdelta c.R previous.R - sdelta c.G previous.G)
            (by obtain ⟨_, _, ⟨_, _⟩, _, _⟩ := hl; omega)
          have e2 := wrap8_id (sdelta c.B previous.B - sdelta c.G previous.G)
            (by obtain ⟨_, _, ⟨_, _⟩, _, _⟩ := hl; omega)
          simp only [hl, and_self, if_true, e1, e2]
        · simp only [hl, if_false]
      · simp only [hG, false_and, and_false, if_false]

theorem SameCache_init : SameCache colorCache.new Spec.Cache.init := fun _ => rfl

theorem SameCache_add (cc : colorCache) (t : Spec.Cache) (h : SameCache cc t) (c : NRGBA) :
    SameCache (cc.add c) (t.insert c) := by
  intro i
  simp only [colorCache.add, Spec.Cache.insert, Function.update_apply]
  have hv := idx_val c
  by_cases hi : i = colorCache.idx c
  · have : i.val = Spec.hash c % 64 := by rw [hi, hv]
    rw [if_pos hi, if_pos this]
  · have : ¬ (i.val = Spec.hash c % 64) := fun he => hi (Fin.ext (by rw [he, hv]))
    rw [if_neg hi, if_neg this]
    exact h i

theorem chunk_bytes_eq (c : NRGBA) (rest : List NRGBA) (cc : colorCache) (t : Spec.Cache)
    (previous : NRGBA) (hs : SameCache cc t) :
    (pickChunk c (runLength previous 62 (c :: rest)) cc previous).encode.map Fin.val
        = Spec.chunkBytes c rest t previous ∧
      max (runLength previous 62 (c :: rest)) 1 = Spec.consumed c rest previous := by
  have hpos : runLength previous 62 (c :: rest) ≠ 0 ↔ c = previous :=
    runLength_cons_pos previous c 61 rest
  have hle := runLength_le_cap previous 62 (c :: rest)
  by_cases hcp : c = previous
  · subst hcp
    have hn : runLength c 62 (c :: rest) ≠ 0 := hpos.2 rfl
    refine ⟨?_, by simp only [Spec.consumed, if_true]; omega⟩
    have hv : (Fin.ofNat (runLength c 62 (c :: rest)) : Byte).val
        = runLength c 62 (c :: rest) := by
      simp only [Fin.ofNat]
      exact Nat.mod_eq_of_lt (by omega)
    have hb := run_byte_value (Fin.ofNat (runLength c 62 (c :: rest)))
      (by rw [hv]; omega) (by rw [hv]; omega)
    rw [hv] at hb
    simp only [pickChunk, ne_eq, hn, not_false_eq_true, if_true, chunk.encode, opRun.encode,
      List.map_cons, List.map_nil, hb, Spec.chunkBytes]
  · have hn : runLength previous 62 (c :: rest) = 0 := by
      by_contra h
      exact hcp (hpos.1 h)
    refine ⟨?_, by simp only [Spec.consumed, hcp, if_false, hn]; rfl⟩
    rw [hn, pickChunk_zero]
    have hsl : t (Spec.hash c % 64) = cc (colorCache.idx c) := by
      rw [hs (colorCache.idx c), idx_val]
    simp only [Spec.chunkBytes, hcp, if_false, Spec.Cache.lookup, hsl]
    by_cases hi : cc (colorCache.idx c) = c
    · have hu : (uint8 ((colorCache.idx c).val : Int)).val = Spec.hash c % 64 := by
        rw [← idx_val]
        have := (colorCache.idx c).isLt
        simp only [uint8]
        omega
      simp only [hi, if_true, chunk.encode, opIndex.encode, List.map_cons, List.map_nil,
        index_byte_value, hu]
    · simp only [hi, if_false]
      by_cases hd : Spec.diffOk c previous
      · simp only [hd, if_true, chunk.encode]
        exact diff_byte_value _ _ _ hd.2.1 hd.2.2.1 hd.2.2.2
      · simp only [hd, if_false]
        by_cases hl : Spec.lumaOk c previous
        · simp only [hl, if_true, chunk.encode, opLuma.encode, List.map_cons, List.map_nil,
            luma_byte0_value _ hl.2.1, luma_byte1_value _ _ hl.2.2.1 hl.2.2.2]
        · simp only [hl, if_false]
          by_cases hA : c.A = previous.A
          · simp [hA, chunk.encode, opRGB.encode, opTagRGB]
            rfl
          · simp [hA, chunk.encode, opRGBA.encode, opTagRGBA]
            rfl

theorem pickList_bytes_eq (bound : Nat) :
    ∀ (px : List NRGBA) (cc : colorCache) (t : Spec.Cache) (previous : NRGBA),
      SameCache cc t →
        ((pickList bound px cc previous).flatMap chunk.encode).map Fin.val
          = Spec.encodeChunks bound px t previous := by
  induction bound with
  | zero => intro px cc t previous _; simp [pickList, Spec.encodeChunks]
  | succ bound ih =>
    intro px cc t previous hs
    cases px with
    | nil => simp [pickList, Spec.encodeChunks]
    | cons c rest =>
      obtain ⟨h1, h2⟩ := chunk_bytes_eq c rest cc t previous hs
      simp only [pickList, Spec.encodeChunks, List.flatMap_cons, List.map_append, h1, h2]
      rw [ih _ _ _ _ (SameCache_add cc t hs c)]

/-- C3. For every non-empty raster, the bytes `Encode` writes between header and end
marker are those of the reference encoder of the specification: starting from previous
pixel `(0, 0, 0, 255)` and an all-zero cache, at each position the first applicable
variant in the order Run (extended up to 62), Index, Diff, Luma, RGB, RGBA in its wire
layout, followed by the insertion of the consumed pixel into the cache and its becoming
the previous pixel. -/
theorem chunk_selection_priority (m : Image) (W H : Nat) (hDx : m.Bounds.Dx = W)
    (hDy : m.Bounds.Dy = H) (hW : 1 ≤ W) (hH : 1 ≤ H) (hW32 : W < 4294967296)
    (hH32 : H < 4294967296) :
    ∃ body : List Byte,
      (∀ fuel, W * H ≤ fuel →
        Encode fuel m = .ok (header.bytes W H 4 0 ++ body ++ endMarker)) ∧
      body.map Fin.val = Spec.encode m.pixels := by
  have eW : m.W = W := by simp [Image.W, hDx]
  have eH : m.H = H := by simp [Image.H, hDy]
  have hW1 : 1 ≤ m.Bounds.Dx := by omega
  have hH1 : 1 ≤ m.Bounds.Dy := by omega
  refine ⟨(pickList m.pixels.length m.pixels colorCache.new ⟨0, 0, 0, 255⟩).flatMap chunk.encode,
    ?_, ?_⟩
  · intro fuel hf
    have hl := Encode_loop_pickList m hW1 hH1 m.pixels.length m.pixels (newImageReader m)
      colorCache.new ⟨0, 0, 0, 255⟩ (Reads_init m hW1 hH1) (Nat.le_refl _) fuel
      (by rw [m.pixels_length, eW, eH]; exact hf)
    have := Encode_of_loop m hW1 hH1 (by omega) (by omega) fuel _ hl
    rw [eW, eH] at this
    exact this
  · exact pickList_bytes_eq _ _ _ _ _ SameCache_init

/-- Instance of C3 at the 3 x 2 sample image. -/
theorem chunk_selection_priority_witness :
    ∃ body : List Byte,
      (∀ fuel, 3 * 2 ≤ fuel →
        Encode fuel sampleImage = .ok (header.bytes 3 2 4 0 ++ body ++ endMarker)) ∧
      body.map Fin.val = Spec.encode sampleImage.pixels :=
  chunk_selection_priority sampleImage 3 2 (by decide) (by decide) (by decide) (by decide)
    (by decide) (by decide)

/-! ## C4: truncated streams -/

theorem ReadFull_short (r : List Byte) (n : Nat) (h : r.length < n) :
    ∃ e, ReadFull r n = .error e := by
  simp only [ReadFull, Nat.not_le.mpr h, if_false]
  split_ifs
  · exact ⟨_, rfl⟩
  · exact ⟨_, rfl⟩

theorem decodeChunk_nil : decodeChunk [] = .error .EOF := rfl

/-- A chunk cut short is not decoded: a strict prefix of the bytes of a chunk makes
`decodeChunk` return a read error. -/
theorem decodeChunk_strict_prefix (op : chunk) (h : op.InRange) (t : List Byte)
    (hp : t <+: op.encode) (hlt : t.length < op.encode.length) :
    ∃ e, decodeChunk t = .error e := by
  cases t with
  | nil => exact ⟨_, decodeChunk_nil⟩
  | cons b t1 =>
    obtain ⟨s, hs⟩ := hp
    cases op with
    | opRGB c =>
      simp only [chunk.encode, opRGB.encode, List.cons_append, List.cons.injEq] at hs
      obtain ⟨hb, _⟩ := hs
      subst hb
      simp only [chunk.encode, opRGB.encode, List.length_cons, List.length_nil] at hlt
      obtain ⟨e, he⟩ := ReadFull_short (opTagRGB :: t1) 4 (by simpa using hlt)
      exact ⟨e, by simp [decodeChunk, ReadByte, opRGB.decode, he]⟩
    | opRGBA c =>
      simp only [chunk.encode, opRGBA.encode, List.cons_append, List.cons.injEq] at hs
      obtain ⟨hb, _⟩ := hs
      subst hb
      simp only [chunk.encode, opRGBA.encode, List.length_cons, List.length_nil] at hlt
      obtain ⟨e, he⟩ := ReadFull_short (opTagRGBA :: t1) 5 (by simpa using hlt)
      exact ⟨e, by simp [decodeChunk, ReadByte, opRGBA.decode, he, tag_facts.2.2.2]⟩
    | opIndex i =>
      simp [chunk.encode, opIndex.encode] at hlt
    | opDiff dr dg db =>
      simp [chunk.encode, opDiff.encode] at hlt
    | opLuma dg drdg dbdg =>
      simp only [chunk.encode, opLuma.encode, List.cons_append, List.cons.injEq] at hs
      obtain ⟨hb, _⟩ := hs
      subst hb
      simp only [chunk.encode, opLuma.encode, List.length_cons, List.length_nil] at hlt
      obtain ⟨h1, h2, h3, h4, h5, h6⟩ := luma_byte0_facts dg h.1
      obtain ⟨e, he⟩ := ReadFull_short ((opTagLuma ||| uint8 (wrap8 (dg + 32))) :: t1) 2
        (by simpa using hlt)
      exact ⟨e, by simp [decodeChunk, ReadByte, opLuma.decode, he, h1, h2, h5, tag_facts.2.1,
        tag_facts.2.2.1]⟩
    | opRun n =>
      simp [chunk.encode, opRun.encode] at hlt

theorem Decode_loop_chunk_error (cfg : Config) (fuel : Nat) (b : List Byte) (img : NRGBAImage)
    (cc : colorCache) (previous : NRGBA) (x y : Nat) (hy : y < cfg.Height) (e : IOError)
    (hd : decodeChunk b = .error e) :
    Decode.loop cfg (fuel + 1) b img cc previous x y = .error (.chunkAt x y e) := by
  rw [Decode.loop]
  simp [hy, hd]

theorem truncated_loop (w h : Nat) (hw : 0 < w) (bound : Nat) :
    ∀ (px : List NRGBA) (cc : colorCache) (previous : NRGBA), px.length ≤ bound →
      ∀ (img : NRGBAImage) (k : Nat) (E t : List Byte) (dfuel : Nat),
        img.Shaped w h → k + px.length = w * h →
        t <+: ((pickList bound px cc previous).flatMap chunk.encode ++ E) →
        t.length < ((pickList bound px cc previous).flatMap chunk.encode ++ E).length →
        t.length < dfuel →
        (∃ e, Decode.loop ⟨w, h⟩ dfuel t img cc previous (k % w) (k / w) = .error e) ∨
        (∃ img1 t1, Decode.loop ⟨w, h⟩ dfuel t img cc previous (k % w) (k / w) = .ok (img1, t1) ∧
          t1.length < E.length) := by
  have hbase : ∀ (img : NRGBAImage) (k : Nat) (E t : List Byte) (dfuel : Nat) (cc : colorCache)
      (previous : NRGBA), k = w * h → t.length < E.length →
      (∃ e, Decode.loop ⟨w, h⟩ dfuel t img cc previous (k % w) (k / w) = .error e) ∨
      (∃ img1 t1, Decode.loop ⟨w, h⟩ dfuel t img cc previous (k % w) (k / w) = .ok (img1, t1) ∧
        t1.length < E.length) := by
    intro img k E t dfuel cc previous hk hlt
    right
    refine ⟨img, t, ?_, hlt⟩
    apply Decode_loop_done
    rw [hk, Nat.mul_div_cancel_left _ hw]
    exact Nat.lt_irrefl _
  induction bound with
  | zero =>
    intro px cc previous hlen img k E t dfuel _ hk _ hlt _
    have hpx : px = [] := List.length_eq_zero.mp (by omega)
    subst hpx
    exact hbase img k E t dfuel cc previous (by simpa using hk) (by simpa [pickList] using hlt)
  | succ bound ih =>
    intro px cc previous hlen img k E t dfuel hs hk hp hlt hdf
    cases px with
    | nil =>
      exact hbase img k E t dfuel cc previous (by simpa using hk) (by simpa [pickList] using hlt)
    | cons c rest =>
      simp only [pickList, List.flatMap_cons, List.append_assoc] at hp hlt
      have hy : k / w < h := by
        rw [Nat.div_lt_iff_lt_mul hw, Nat.mul_comm]
        simp only [List.length_cons] at hk
        omega
      have hin := pickChunk_InRange c (runLength previous 62 (c :: rest)) cc previous
        (runLength_le_cap previous 62 (c :: rest))
      cases dfuel with
      | zero => simp at hdf
      | succ dfuel =>
        by_cases hle : (pickChunk c (runLength previous 62 (c :: rest)) cc previous).encode.length
            ≤ t.length
        · have hpre := List.prefix_of_prefix_length_le (List.prefix_append _ _) hp hle
          obtain ⟨t1, ht1⟩ := hpre
          subst ht1
          have hp1 := (List.prefix_append_right_inj _).mp hp
          obtain ⟨hset, _, hjl⟩ := pickChunk_step w h cc previous c rest img k hs hw
            (Nat.le_of_eq hk)
          have hstep := Decode_loop_step ⟨w, h⟩ dfuel _ img cc previous (k % w) (k / w)
            hy (Nat.pos_iff_ne_zero.mp hw) _ _ _ _ _ (decodeChunk_encode _ hin t1) hset
          obtain ⟨e1, e2⟩ := pos_add k (max (runLength previous 62 (c :: rest)) 1) w hw
          simp only [e1, e2] at hstep
          rw [hstep]
          have hpos := chunk_encode_length_pos
            (pickChunk c (runLength previous 62 (c :: rest)) cc previous)
          simp only [List.length_append] at hlt hdf
          refine ih _ (cc.add c) c ?_ _ _ E t1 dfuel
            (NRGBAImage.fill_Shaped c w h _ img k hs) ?_ hp1 ?_ ?_
          · simp only [List.length_drop, List.length_cons] at hlen ⊢
            omega
          · simp only [List.length_drop, List.length_cons] at hk hjl ⊢
            omega
          · simp only [List.length_append]
            omega
          · omega
        · left
          have hpre := List.prefix_of_prefix_length_le hp (List.prefix_append _ _)
            (Nat.le_of_lt (Nat.not_le.mp hle))
          obtain ⟨e, he⟩ := decodeChunk_strict_prefix _ hin t hpre (Nat.not_le.mp hle)
          exact ⟨_, Decode_loop_chunk_error ⟨w, h⟩ dfuel t img cc previous _ _ hy e he⟩

/-- C4. For every non-empty raster, every strict prefix of the byte stream `Encode`
returns (the empty prefix, a cut in the header, in a chunk, between chunks or in the end
marker) makes `Decode` return an error. -/
theorem truncation_is_error (m : Image) (W H : Nat) (hDx : m.Bounds.Dx = W)
    (hDy : m.Bounds.Dy = H) (hW : 1 ≤ W) (hH : 1 ≤ H) (hW32 : W < 4294967296)
    (hH32 : H < 4294967296) :
    ∃ bs, (∀ fuel, W * H ≤ fuel → Encode fuel m = .ok bs) ∧
      ∀ s : List Byte, s <+: bs → s ≠ bs → ∃ e, Decode s = .error e := by
  have eW : m.W = W := by simp [Image.W, hDx]
  have eH : m.H = H := by simp [Image.H, hDy]
  have hW1 : 1 ≤ m.Bounds.Dx := by omega
  have hH1 : 1 ≤ m.Bounds.Dy := by omega
  refine ⟨header.bytes W H 4 0 ++
    (pickList m.pixels.length m.pixels colorCache.new ⟨0, 0, 0, 255⟩).flatMap chunk.encode
      ++ endMarker, ?_, ?_⟩
  · intro fuel hf
    have hl := Encode_loop_pickList m hW1 hH1 m.pixels.length m.pixels (newImageReader m)
      colorCache.new ⟨0, 0, 0, 255⟩ (Reads_init m hW1 hH1) (Nat.le_refl _) fuel
      (by rw [m.pixels_length, eW, eH]; exact hf)
    have := Encode_of_loop m hW1 hH1 (by omega) (by omega) fuel _ hl
    rw [eW, eH] at this
    exact this
  · intro s hp hne
    rw [List.append_assoc] at hp hne
    have hlt : s.length < (header.bytes W H 4 0 ++
        ((pickList m.pixels.length m.pixels colorCache.new ⟨0, 0, 0, 255⟩).flatMap chunk.encode
          ++ endMarker)).length := by
      rcases Nat.lt_or_ge s.length _ with h | h
      · exact h
      · exact absurd (List.IsPrefix.eq_of_length_le hp h) hne
    by_cases h14 : 14 ≤ s.length
    · have hpre := List.prefix_of_prefix_length_le (List.prefix_append _ _) hp
        (by rw [header_bytes_length]; exact h14)
      obtain ⟨t, ht⟩ := hpre
      subst ht
      have hp1 := (List.prefix_append_right_inj _).mp hp
      replace hlt : t.length < ((pickList m.pixels.length m.pixels colorCache.new
          ⟨0, 0, 0, 255⟩).flatMap chunk.encode ++ endMarker).length := by
        simp only [List.length_append] at hlt ⊢
        omega
      have hshape : (NewNRGBA W H).Shaped W H := by
        refine ⟨rfl, rfl, rfl, ?_⟩
        simp [NewNRGBA, Nat.mul_assoc]
      have hpl : m.pixels.length = W * H := by rw [m.pixels_length, eW, eH]
      have ht := truncated_loop W H hW m.pixels.length m.pixels colorCache.new ⟨0, 0, 0, 255⟩
        (Nat.le_refl _) (NewNRGBA W H) 0 endMarker t (t.length + 1) hshape
        (by rw [hpl, Nat.zero_add]) hp1 hlt (Nat.lt_succ_self _)
      simp only [Nat.zero_mod, Nat.zero_div] at ht
      simp only [Decode, DecodeConfig_header W H hW32 hH32]
      rcases ht with ⟨e, he⟩ | ⟨img1, t1, he, hl1⟩
      · exact ⟨e, by rw [he]⟩
      · obtain ⟨e, hre⟩ := ReadFull_short t1 8 (by simpa [endMarker] using hl1)
        exact ⟨.readingEndMarker e, by rw [he]; simp only [hre]⟩
    · obtain ⟨e, hre⟩ := ReadFull_short s 14 (Nat.not_le.mp h14)
      exact ⟨.header e, by simp only [Decode, DecodeConfig, hre]⟩

/-- Instance of C4 at the 3 x 2 sample image. -/
theorem truncation_is_error_witness :
    ∃ bs, (∀ fuel, 3 * 2 ≤ fuel → Encode fuel sampleImage = .ok bs) ∧
      ∀ s : List Byte, s <+: bs → s ≠ bs → ∃ e, Decode s = .error e :=
  truncation_is_error sampleImage 3 2 (by decide) (by decide) (by decide) (by decide)
    (by decide) (by decide)

/-! ## C11: pixel reconstruction -/

theorem uint8_wrap8_add (a : Byte) (d : Int) :
    ((uint8 (wrap8 (int8 a + d))).val : Int) = ((a.val : Int) + d) % 256 := by
  simp only [uint8, wrap8, int8]
  split_ifs <;> omega

theorem uint8_wrap8_add2 (a : Byte) (d e : Int) :
    ((uint8 (wrap8 (wrap8 (int8 a + d) + e))).val : Int) = ((a.val : Int) + d + e) % 256 := by
  simp only [uint8, wrap8, int8]
  split_ifs <;> omega

/-- C11. For every previous pixel `p`, cache `cc` and destination: `set` of a Diff chunk
produces `((p.R+dr) mod 256, (p.G+dg) mod 256, (p.B+db) mod 256, p.A)`, of a Luma chunk
`((p.R+dg+drdg) mod 256, (p.G+dg) mod 256, (p.B+dg+dbdg) mod 256, p.A)`, of an RGB chunk
`(R, G, B, p.A)`, of an RGBA chunk `(R, G, B, A)`, of an Index chunk the slot `cc[i]`, and
of a Run chunk `p`; the variants other than Run count one pixel and store it at
`(x, y)`.  The sums are over the integers, so the signed 8-bit steps of the code do not
change them. -/
theorem set_reconstruction (img : NRGBAImage) (x y : Nat) (cc : colorCache) (p : NRGBA) :
    (∀ dr dg db : Int, ∃ c : NRGBA,
      chunk.set (.opDiff dr dg db) img x y cc p = .ok (1, c, img.SetNRGBA x y c) ∧
      (c.R.val : Int) = ((p.R.val : Int) + dr) % 256 ∧
      (c.G.val : Int) = ((p.G.val : Int) + dg) % 256 ∧
      (c.B.val : Int) = ((p.B.val : Int) + db) % 256 ∧ c.A = p.A) ∧
    (∀ dg drdg dbdg : Int, ∃ c : NRGBA,
      chunk.set (.opLuma dg drdg dbdg) img x y cc p = .ok (1, c, img.SetNRGBA x y c) ∧
      (c.R.val : Int) = ((p.R.val : Int) + dg + drdg) % 256 ∧
      (c.G.val : Int) = ((p.G.val : Int) + dg) % 256 ∧
      (c.B.val : Int) = ((p.B.val : Int) + dg + dbdg) % 256 ∧ c.A = p.A) ∧
    (∀ c0 : NRGBA, chunk.set (.opRGB c0) img x y cc p
      = .ok (1, ⟨c0.R, c0.G, c0.B, p.A⟩, img.SetNRGBA x y ⟨c0.R, c0.G, c0.B, p.A⟩)) ∧
    (∀ c0 : NRGBA, chunk.set (.opRGBA c0) img x y cc p = .ok (1, c0, img.SetNRGBA x y c0)) ∧
    (∀ (i : Byte) (h : i.val < 64), chunk.set (.opIndex i) img x y cc p
      = .ok (1, cc ⟨i.val, h⟩, img.SetNRGBA x y (cc ⟨i.val, h⟩))) ∧
    (∀ n : Byte, ∃ (k : Nat) (img1 : NRGBAImage),
      chunk.set (.opRun n) img x y cc p = .ok (k, p, img1)) := by
  refine ⟨?_, ?_, ?_, ?_, ?_, ?_⟩
  · intro dr dg db
    exact ⟨_, rfl, uint8_wrap8_add _ _, uint8_wrap8_add _ _, uint8_wrap8_add _ _, rfl⟩
  · intro dg drdg dbdg
    exact ⟨_, rfl, uint8_wrap8_add2 _ _ _, uint8_wrap8_add _ _, uint8_wrap8_add2 _ _ _, rfl⟩
  · intro c0; rfl
  · intro c0; rfl
  · intro i h
    simp only [chunk.set, opIndex.set, h, dite_true]
  · intro n
    exact ⟨_, _, rfl⟩

/-! ## C12: wire round trip of one chunk -/

/-- C12. A chunk within its field ranges, written by `encode` and followed by any bytes,
is read back by `decodeChunk` as the same variant with the same fields, the bytes after
it are left unread, and it occupies 1 (Run), 1 (Index), 1 (Diff), 2 (Luma), 4 (RGB) or
5 (RGBA) bytes.  The alpha field of an RGB chunk is not on the wire: for any RGB triple
it is read back as 0, the value the encoder gives it. -/
theorem chunk_wire_roundtrip (op : chunk) (h : op.InRange) (rest : List Byte) :
    decodeChunk (op.encode ++ rest) = .ok (op, rest) ∧
    op.encode.length = op.wireLength ∧
    ∀ c : NRGBA, decodeChunk (chunk.encode (.opRGB c) ++ rest)
      = .ok (.opRGB ⟨c.R, c.G, c.B, 0⟩, rest) := by
  refine ⟨decodeChunk_encode op h rest, ?_, ?_⟩
  · cases op <;> rfl
  · intro c
    have := decodeChunk_encode (.opRGB ⟨c.R, c.G, c.B, 0⟩) rfl rest
    exact this

/-- Instance of C12 at a Luma chunk with boundary fields. -/
theorem chunk_wire_roundtrip_witness :
    decodeChunk (chunk.encode (.opLuma (-32) 7 (-8)) ++ [1, 2, 3])
        = .ok (.opLuma (-32) 7 (-8), [1, 2, 3]) ∧
    (chunk.encode (.opLuma (-32) 7 (-8))).length = chunk.wireLength (.opLuma (-32) 7 (-8)) ∧
    ∀ c : NRGBA, decodeChunk (chunk.encode (.opRGB c) ++ [1, 2, 3])
      = .ok (.opRGB ⟨c.R, c.G, c.B, 0⟩, [1, 2, 3]) :=
  chunk_wire_roundtrip (.opLuma (-32) 7 (-8))
    ⟨⟨by decide, by decide⟩, ⟨by decide, by decide⟩, by decide, by decide⟩ [1, 2, 3]

/-! ## C18: cache index arithmetic -/

/-- C18. The slot index computed in wrapping 8-bit arithmetic equals
`((3R + 5G + 7B + 11A) mod 256) mod 64` and `(3R + 5G + 7B + 11A) mod 64` over the
natural numbers, lies in `0..63`, and `get` right after `add` of the same colour is a hit
at that index. -/
theorem cache_index_arithmetic (cc : colorCache) (c : NRGBA) :
    (colorCache.idx c).val = ((3 * c.R.val + 5 * c.G.val + 7 * c.B.val + 11 * c.A.val) % 256) % 64 ∧
    (colorCache.idx c).val = (3 * c.R.val + 5 * c.G.val + 7 * c.B.val + 11 * c.A.val) % 64 ∧
    (colorCache.idx c).val < 64 ∧
    (cc.add c) (colorCache.idx c) = c ∧
    (cc.add c).get c = ((colorCache.idx c).val : Int) := by
  have h := idx_val c
  simp only [Spec.hash] at h
  refine ⟨by rw [h]; omega, by rw [h]; omega, (colorCache.idx c).isLt, ?_, ?_⟩
  · simp [colorCache.add]
  · simp [colorCache.get, colorCache.add]

/-! ## C19: faults of the decoder -/

/-- C19 (the code at the failing input). A stream whose valid header declares width 0 and
height 1, followed by one chunk byte, makes `Decode` divide by zero in the cursor update. -/
theorem Decode_zero_width_divides_by_zero :
    Decode [0x71, 0x6f, 0x69, 0x66, 0, 0, 0, 0, 0, 0, 0, 1, 4, 0, 0x00]
      = .panic .divideByZero := by
  decide

/-! ## C15: the chunks of a raster without pixels -/

/-- C15 (the code at the failing input). For the raster of width 2 and height 0 `Encode`
writes 23 bytes: between header and end marker stands one Index chunk, for the colour
the image gives at its minimum point. -/
theorem Encode_empty_raster :
    Encode 1 emptyImage
        = .ok [0x71, 0x6f, 0x69, 0x66, 0, 0, 0, 2, 0, 0, 0, 0, 4, 0, 0x00,
               0, 0, 0, 0, 0, 0, 0, 1] ∧
    Encode.loop 1 (newImageReader emptyImage) colorCache.new ⟨0, 0, 0, 255⟩
        = .ok [.opIndex 0] := by
  decide

/-! ## C16: the count returned by a clipped run -/

/-- C16 (the code at the failing input). In a 1 x 1 raster, a Run chunk of length 3 set at
`(0, 0)` stores one pixel, the only one the buffer has room for, and returns the count 2. -/
theorem opRun_set_clipped_count :
    opRun.set 3 (NewNRGBA 1 1) 0 0 ⟨1, 2, 3, 4⟩
      = (2, ⟨1, 2, 3, 4⟩, { Pix := [1, 2, 3, 4], Stride := 4, W := 1, H := 1 }) := by
  decide

/-! ## C13: a 1 x 1 white raster -/

theorem pixels_1x1 (m : Image) (hDx : m.Bounds.Dx = 1) (hDy : m.Bounds.Dy = 1) :
    m.pixels = [m.At m.Bounds.Min.X m.Bounds.Min.Y] := by
  have eW : m.W = 1 := by simp [Image.W, hDx]
  have eH : m.H = 1 := by simp [Image.H, hDy]
  have hr : List.range 1 = [0] := by decide
  simp [Image.pixels, Image.pix, eW, eH, hr]

theorem Encode_of_pixels (m : Image) (W H : Nat) (hDx : m.Bounds.Dx = W) (hDy : m.Bounds.Dy = H)
    (hW : 1 ≤ W) (hH : 1 ≤ H) (hW32 : W < 4294967296) (hH32 : H < 4294967296) (fuel : Nat)
    (hf : W * H ≤ fuel) :
    Encode.loop fuel (newImageReader m) colorCache.new ⟨0, 0, 0, 255⟩
        = .ok (pickList m.pixels.length m.pixels colorCache.new ⟨0, 0, 0, 255⟩) ∧
    Encode fuel m = .ok (header.bytes W H 4 0 ++
      (pickList m.pixels.length m.pixels colorCache.new ⟨0, 0, 0, 255⟩).flatMap chunk.encode
        ++ endMarker) := by
  have eW : m.W = W := by simp [Image.W, hDx]
  have eH : m.H = H := by simp [Image.H, hDy]
  have hW1 : 1 ≤ m.Bounds.Dx := by omega
  have hH1 : 1 ≤ m.Bounds.Dy := by omega
  have hl := Encode_loop_pickList m hW1 hH1 m.pixels.length m.pixels (newImageReader m)
    colorCache.new ⟨0, 0, 0, 255⟩ (Reads_init m hW1 hH1) (Nat.le_refl _) fuel
    (by rw [m.pixels_length, eW, eH]; exact hf)
  refine ⟨hl, ?_⟩
  have := Encode_of_loop m hW1 hH1 (by omega) (by omega) fuel _ hl
  rw [eW, eH] at this
  exact this

/-- C13. A 1 x 1 raster whose pixel is `(255, 255, 255, 255)` is encoded as 23 bytes: the
header for width 1 and height 1, the Diff byte `0x55` (the chunk with `dR = dG = dB = -1`,
the wrapped deltas from the initial previous pixel), and the end marker; `Decode` of
these bytes returns a 1 x 1 raster holding `(255, 255, 255, 255)`. -/
theorem white_pixel_end_to_end (m : Image) (hDx : m.Bounds.Dx = 1) (hDy : m.Bounds.Dy = 1)
    (hp : m.At m.Bounds.Min.X m.Bounds.Min.Y = ⟨255, 255, 255, 255⟩) :
    (∀ fuel, 1 ≤ fuel →
      Encode.loop fuel (newImageReader m) colorCache.new ⟨0, 0, 0, 255⟩
        = .ok [.opDiff (-1) (-1) (-1)] ∧
      Encode fuel m = .ok [0x71, 0x6f, 0x69, 0x66, 0, 0, 0, 1, 0, 0, 0, 1, 4, 0, 0x55,
        0, 0, 0, 0, 0, 0, 0, 1]) ∧
    ([0x71, 0x6f, 0x69, 0x66, 0, 0, 0, 1, 0, 0, 0, 1, 4, 0, 0x55,
        0, 0, 0, 0, 0, 0, 0, 1] : List Byte).length = 23 ∧
    chunk.encode (.opDiff (-1) (-1) (-1)) = [0x55] ∧
    (sdelta 255 0 = -1 ∧ newOpDiff (newImageReader m) ⟨0, 0, 0, 255⟩
      = .ok (some (.opDiff (-1) (-1) (-1)), (newImageReader m).next)) ∧
    Decode [0x71, 0x6f, 0x69, 0x66, 0, 0, 0, 1, 0, 0, 0, 1, 4, 0, 0x55, 0, 0, 0, 0, 0, 0, 0, 1]
      = .ok { Pix := [255, 255, 255, 255], Stride := 4, W := 1, H := 1 } ∧
    NRGBAImage.NRGBAAt { Pix := [255, 255, 255, 255], Stride := 4, W := 1, H := 1 } 0 0
      = ⟨255, 255, 255, 255⟩ := by
  have hpx := pixels_1x1 m hDx hDy
  rw [hp] at hpx
  have hlist : pickList m.pixels.length m.pixels colorCache.new ⟨0, 0, 0, 255⟩
      = [.opDiff (-1) (-1) (-1)] := by
    rw [hpx]
    decide
  refine ⟨?_, by decide, by decide, ⟨by decide, ?_⟩, by decide, by decide⟩
  · intro fuel hf
    have h := Encode_of_pixels m 1 1 (by simpa using hDx) (by simpa using hDy) (by decide)
      (by decide) (by decide) (by decide) fuel (by simpa using hf)
    rw [hlist] at h
    refine ⟨h.1, ?_⟩
    rw [h.2]
    decide
  · have hc : (newImageReader m).c = some ⟨255, 255, 255, 255⟩ := by
      simp [newImageReader, hp]
    have e : int8 (255 : Byte) = -1 := by decide
    simp [newOpDiff, hc, e]

/-- Instance of C13 at a 1 x 1 image with a shifted rectangle. -/
theorem white_pixel_end_to_end_witness :
    Encode.loop 1
        (newImageReader ⟨⟨⟨5, 7⟩, ⟨6, 8⟩⟩, fun _ _ => ⟨255, 255, 255, 255⟩⟩)
        colorCache.new ⟨0, 0, 0, 255⟩ = .ok [.opDiff (-1) (-1) (-1)] ∧
      Encode 1 ⟨⟨⟨5, 7⟩, ⟨6, 8⟩⟩, fun _ _ => ⟨255, 255, 255, 255⟩⟩
        = .ok [0x71, 0x6f, 0x69, 0x66, 0, 0, 0, 1, 0, 0, 0, 1, 4, 0, 0x55,
          0, 0, 0, 0, 0, 0, 0, 1] :=
  (white_pixel_end_to_end ⟨⟨⟨5, 7⟩, ⟨6, 8⟩⟩, fun _ _ => ⟨255, 255, 255, 255⟩⟩
    (by decide) (by decide) rfl).1 1 (by decide)

/-! ## C14: a uniform 2 x 2 raster -/

theorem pixels_2x2 (m : Image) (hDx : m.Bounds.Dx = 2) (hDy : m.Bounds.Dy = 2) (p : NRGBA)
    (hp : ∀ x y : Nat, x < 2 → y < 2 →
      m.At (m.Bounds.Min.X + (x : Int)) (m.Bounds.Min.Y + (y : Int)) = p) :
    m.pixels = [p, p, p, p] := by
  have eW : m.W = 2 := by simp [Image.W, hDx]
  have eH : m.H = 2 := by simp [Image.H, hDy]
  have h0 := hp 0 0 (by decide) (by decide)
  have h1 := hp 1 0 (by decide) (by decide)
  have h2 := hp 0 1 (by decide) (by decide)
  have h3 := hp 1 1 (by decide) (by decide)
  have hr : List.range 4 = [0, 1, 2, 3] := by decide
  simp only [Image.pixels, Image.pix, eW, eH, Nat.reduceMul, hr, List.map_cons, List.map_nil,
    Nat.reduceMod, Nat.reduceDiv, h0, h1, h2, h3]

/-- C14. A 2 x 2 raster whose four pixels all equal `p` (opaque or not): when `p` differs
from `(0, 0, 0, 255)` the chunks are one chunk that is not a Run, for the first pixel,
and the Run byte `0xC2` (run length 3); when `p = (0, 0, 0, 255)` they are the single
Run byte `0xC3` (run length 4); and `Decode` of the stream returns a 2 x 2 raster of
4 pixels, all equal to `p`. -/
theorem uniform_2x2 (m : Image) (hDx : m.Bounds.Dx = 2) (hDy : m.Bounds.Dy = 2) (p : NRGBA)
    (hp : ∀ x y : Nat, x < 2 → y < 2 →
      m.At (m.Bounds.Min.X + (x : Int)) (m.Bounds.Min.Y + (y : Int)) = p) :
    (p ≠ ⟨0, 0, 0, 255⟩ → ∃ op : chunk, (∀ n, op ≠ .opRun n) ∧ ∀ fuel, 4 ≤ fuel →
      Encode.loop fuel (newImageReader m) colorCache.new ⟨0, 0, 0, 255⟩ = .ok [op, .opRun 3] ∧
      Encode fuel m = .ok (header.bytes 2 2 4 0 ++ (op.encode ++ [0xC2]) ++ endMarker)) ∧
    (p = ⟨0, 0, 0, 255⟩ → ∀ fuel, 4 ≤ fuel →
      Encode.loop fuel (newImageReader m) colorCache.new ⟨0, 0, 0, 255⟩ = .ok [.opRun 4] ∧
      Encode fuel m = .ok (header.bytes 2 2 4 0 ++ [0xC3] ++ endMarker)) ∧
    ∃ bs img, (∀ fuel, 4 ≤ fuel → Encode fuel m = .ok bs) ∧ Decode bs = .ok img ∧
      img.W = 2 ∧ img.H = 2 ∧ img.Pix.length = 4 * 4 ∧
      ∀ x y : Nat, x < 2 → y < 2 → img.NRGBAAt x y = p := by
  have hpx := pixels_2x2 m hDx hDy p hp
  have henc : ∀ fuel, 4 ≤ fuel → _ := fun fuel hf =>
    Encode_of_pixels m 2 2 (by simpa using hDx) (by simpa using hDy) (by decide)
      (by decide) (by decide) (by decide) fuel (by simpa using hf)
  refine ⟨?_, ?_, ?_⟩
  · intro hne
    have hne' : ¬ (⟨0, 0, 0, 255⟩ : NRGBA) = p := fun h => hne h.symm
    have hlist : pickList m.pixels.length m.pixels colorCache.new ⟨0, 0, 0, 255⟩
        = [pickChunk p 0 colorCache.new ⟨0, 0, 0, 255⟩, .opRun 3] := by
      rw [hpx]
      simp [pickList, runLength, hne, hne', pickChunk]
      rfl
    refine ⟨pickChunk p 0 colorCache.new ⟨0, 0, 0, 255⟩, ?_, ?_⟩
    · intro n h
      exact pickChunk_eq_opRun p 0 colorCache.new ⟨0, 0, 0, 255⟩ n h rfl
    · intro fuel hf
      have h := henc fuel hf
      rw [hlist] at h
      refine ⟨h.1, ?_⟩
      rw [h.2]
      simp [chunk.encode, opRun.encode]
      decide
  · intro he fuel hf
    have hlist : pickList m.pixels.length m.pixels colorCache.new ⟨0, 0, 0, 255⟩
        = [.opRun 4] := by
      rw [hpx, he]
      decide
    have h := henc fuel hf
    rw [hlist] at h
    refine ⟨h.1, ?_⟩
    rw [h.2]
    decide
  · obtain ⟨bs, img, h1, h2, h3, h4⟩ := roundtrip_aux m (by omega) (by omega) (by omega)
      (by omega)
    have eW : m.W = 2 := by simp [Image.W, hDx]
    have eH : m.H = 2 := by simp [Image.H, hDy]
    rw [eW, eH] at h1 h3 h4
    refine ⟨bs, img, h1, h2, h3.1, h3.2.1, h3.2.2.2, ?_⟩
    intro x y hx hy
    rw [img.NRGBAAt_eq 2 2 x y h3 hx hy]
    have hlt : y * 2 + x < 2 * 2 := by omega
    rw [h4 _ hlt]
    have hget : m.pixels.getD (y * 2 + x) ⟨0, 0, 0, 0⟩ = p := by
      rw [hpx]
      have : y * 2 + x = 0 ∨ y * 2 + x = 1 ∨ y * 2 + x = 2 ∨ y * 2 + x = 3 := by omega
      rcases this with h | h | h | h <;> rw [h] <;> rfl
    have hpix : m.pixels.getD (y * 2 + x) ⟨0, 0, 0, 0⟩ = m.pix (y * 2 + x) := by
      simp [Image.pixels, List.getD_eq_getElem?_getD, eW, eH, hlt]
    rw [← hpix, hget]

/-- Instance of C14 at the 2 x 2 raster of white pixels. -/
theorem uniform_2x2_witness :
    ∃ bs img, (∀ fuel, 4 ≤ fuel →
        Encode fuel ⟨⟨⟨0, 0⟩, ⟨2, 2⟩⟩, fun _ _ => ⟨255, 255, 255, 255⟩⟩ = .ok bs) ∧
      Decode bs = .ok img ∧ img.W = 2 ∧ img.H = 2 ∧ img.Pix.length = 4 * 4 ∧
      ∀ x y : Nat, x < 2 → y < 2 → img.NRGBAAt x y = ⟨255, 255, 255, 255⟩ :=
  (uniform_2x2 ⟨⟨⟨0, 0⟩, ⟨2, 2⟩⟩, fun _ _ => ⟨255, 255, 255, 255⟩⟩ (by decide) (by decide)
    ⟨255, 255, 255, 255⟩ (fun _ _ _ _ => rfl)).2.2

/-! ## C20: size of the encoded stream -/

theorem chunk_encode_length_le (op : chunk) : op.encode.length ≤ 5 := by
  cases op <;> simp [chunk.encode, opRGB.encode, opRGBA.encode, opIndex.encode, opDiff.encode,
    opLuma.encode, opRun.encode]

theorem pickList_bytes_length (bound : Nat) :
    ∀ (px : List NRGBA) (cc : colorCache) (previous : NRGBA),
      ((pickList bound px cc previous).flatMap chunk.encode).length ≤ 5 * px.length := by
  induction bound with
  | zero => intro px cc previous; simp [pickList]
  | succ bound ih =>
    intro px cc previous
    cases px with
    | nil => simp [pickList]
    | cons c rest =>
      have h1 := chunk_encode_length_le (pickChunk c (runLength previous 62 (c :: rest)) cc previous)
      have h2 := ih ((c :: rest).drop (max (runLength previous 62 (c :: rest)) 1)) (cc.add c) c
      have h3 := runLength_le_length previous 62 (c :: rest)
      simp only [pickList, List.flatMap_cons, List.length_append, List.length_drop,
        List.length_cons] at h2 h3 ⊢
      omega

theorem Encode_loop_mono (fuel : Nat) :
    ∀ (r : imageReader) (cc : colorCache) (previous : NRGBA) (ops : List chunk),
      Encode.loop fuel r cc previous = .ok ops → Encode.loop (fuel + 1) r cc previous = .ok ops := by
  induction fuel with
  | zero =>
    intro r cc previous ops h
    cases hc : r.c with
    | none =>
      rw [Encode_loop_nil 0 r cc previous hc] at h
      rw [Encode_loop_nil 1 r cc previous hc]
      exact h
    | some c =>
      rw [Encode.loop] at h
      simp [hc] at h
  | succ fuel ih =>
    intro r cc previous ops h
    cases hc : r.c with
    | none =>
      rw [Encode_loop_nil _ r cc previous hc] at h
      rw [Encode_loop_nil _ r cc previous hc]
      exact h
    | some c =>
      obtain ⟨n, _, _, he⟩ := encodeChunk_iterate cc previous r c hc
      rw [Encode.loop] at h
      simp only [hc, he] at h
      cases hl : Encode.loop fuel (imageReader.next^[max n 1] r) (cc.add c) c with
      | ok ops1 =>
        rw [hl] at h
        have hops : pickChunk c n cc previous :: ops1 = ops := by
          injection h
        rw [← hops]
        exact Encode_loop_step (fuel + 1) r _ cc previous c _ ops1 hc he (ih _ _ _ _ hl)
      | error e => rw [hl] at h; cases h
      | panic e => rw [hl] at h; cases h
      | outOfFuel => rw [hl] at h; cases h

theorem Encode_loop_mono_add (fuel k : Nat) (r : imageReader) (cc : colorCache)
    (previous : NRGBA) (ops : List chunk) (h : Encode.loop fuel r cc previous = .ok ops) :
    Encode.loop (fuel + k) r cc previous = .ok ops := by
  induction k with
  | zero => exact h
  | succ k ih => exact Encode_loop_mono (fuel + k) r cc previous ops ih

/-- C20. For every raster with `W ≥ 1` and `H ≥ 1`, whatever byte stream `Encode` returns
has at most `14 + 5 * W * H + 8` bytes; and for `W, H < 2^32` it does return one, with any
fuel of at least `W * H` iterations. -/
theorem encoded_size_bound (m : Image) (W H : Nat) (hDx : m.Bounds.Dx = W)
    (hDy : m.Bounds.Dy = H) (hW : 1 ≤ W) (hH : 1 ≤ H) :
    (∀ fuel bs, Encode fuel m = .ok bs → bs.length ≤ 14 + 5 * (W * H) + 8) ∧
    (W < 4294967296 → H < 4294967296 → ∀ fuel, W * H ≤ fuel → ∃ bs, Encode fuel m = .ok bs) := by
  have eW : m.W = W := by simp [Image.W, hDx]
  have eH : m.H = H := by simp [Image.H, hDy]
  have hW1 : 1 ≤ m.Bounds.Dx := by omega
  have hH1 : 1 ≤ m.Bounds.Dy := by omega
  constructor
  · intro fuel bs h
    by_cases hbig : m.Bounds.Dx > 4294967295 ∨ m.Bounds.Dy > 4294967295
    · simp [Encode, hbig] at h
    · have hs := Encode_shape m W H hDx hDy (by omega) (by omega) fuel
      rcases Encode_loop_total fuel (newImageReader m) colorCache.new ⟨0, 0, 0, 255⟩
        with ho | ⟨ops, ho⟩
      · rw [hs.2 ho] at h; cases h
      · rw [hs.1 ops ho] at h
        have hbs : header.bytes W H 4 0 ++ ops.flatMap chunk.encode ++ endMarker = bs := by
          injection h
        have hmono := Encode_loop_mono_add fuel (W * H) _ _ _ _ ho
        have hpl := Encode_loop_pickList m hW1 hH1 m.pixels.length m.pixels (newImageReader m)
          colorCache.new ⟨0, 0, 0, 255⟩ (Reads_init m hW1 hH1) (Nat.le_refl _) (fuel + W * H)
          (by rw [m.pixels_length, eW, eH]; omega)
        rw [hmono] at hpl
        have hops : ops = pickList m.pixels.length m.pixels colorCache.new ⟨0, 0, 0, 255⟩ := by
          injection hpl
        have hlen := pickList_bytes_length m.pixels.length m.pixels colorCache.new ⟨0, 0, 0, 255⟩
        rw [← hops, m.pixels_length, eW, eH] at hlen
        rw [← hbs]
        simp only [List.length_append, header_bytes_length, endMarker, List.length_cons,
          List.length_nil]
        omega
  · intro hW32 hH32 fuel hf
    exact ⟨_, (Encode_of_pixels m W H hDx hDy hW hH hW32 hH32 fuel hf).2⟩

/-- Instance of C20 at the 3 x 2 sample image. -/
theorem encoded_size_bound_witness :
    (∀ fuel bs, Encode fuel sampleImage = .ok bs → bs.length ≤ 14 + 5 * (3 * 2) + 8) ∧
    (3 < 4294967296 → 2 < 4294967296 → ∀ fuel, 3 * 2 ≤ fuel →
      ∃ bs, Encode fuel sampleImage = .ok bs) :=
  encoded_size_bound sampleImage 3 2 (by decide) (by decide) (by decide) (by decide)

/-! ## C17: a final run that is too long -/

theorem opRun_set_loop_Shaped (c : NRGBA) (w h n y : Nat) (rem : Nat) :
    ∀ (i x : Nat) (img : NRGBAImage), img.Shaped w h →
      (opRun.set.loop n y c rem i x img).2.Shaped w h := by
  induction rem with
  | zero => intro i x img hs; exact hs
  | succ rem ih =>
    intro i x img hs
    simp only [opRun.set.loop]
    split_ifs
    · exact hs
    · exact ih _ _ _ (img.store_Shaped _ c w h hs)

theorem SetNRGBA_Shaped (img : NRGBAImage) (x y : Nat) (c : NRGBA) (w h : Nat)
    (hs : img.Shaped w h) : (img.SetNRGBA x y c).Shaped w h := by
  simp only [NRGBAImage.SetNRGBA]
  split_ifs
  · exact img.store_Shaped _ c w h hs
  · exact hs

theorem chunk_set_Shaped (op : chunk) (img img1 : NRGBAImage) (x y n : Nat) (cc : colorCache)
    (previous c : NRGBA) (w h : Nat) (hs : img.Shaped w h)
    (hset : op.set img x y cc previous = .ok (n, c, img1)) : img1.Shaped w h := by
  cases op with
  | opRGB c0 =>
    simp only [chunk.set, opRGB.set, opRGBA.set, Except.ok.injEq, Prod.mk.injEq] at hset
    rw [← hset.2.2]; exact SetNRGBA_Shaped _ _ _ _ _ _ hs
  | opRGBA c0 =>
    simp only [chunk.set, opRGBA.set, Except.ok.injEq, Prod.mk.injEq] at hset
    rw [← hset.2.2]; exact SetNRGBA_Shaped _ _ _ _ _ _ hs
  | opIndex i =>
    simp only [chunk.set, opIndex.set] at hset
    split_ifs at hset
    simp only [Except.ok.injEq, Prod.mk.injEq] at hset
    rw [← hset.2.2]; exact SetNRGBA_Shaped _ _ _ _ _ _ hs
  | opDiff dr dg db =>
    simp only [chunk.set, opDiff.set, Except.ok.injEq, Prod.mk.injEq] at hset
    rw [← hset.2.2]; exact SetNRGBA_Shaped _ _ _ _ _ _ hs
  | opLuma dg drdg dbdg =>
    simp only [chunk.set, opLuma.set, Except.ok.injEq, Prod.mk.injEq] at hset
    rw [← hset.2.2]; exact SetNRGBA_Shaped _ _ _ _ _ _ hs
  | opRun k =>
    simp only [chunk.set, opRun.set, Except.ok.injEq, Prod.mk.injEq] at hset
    rw [← hset.2.2]; exact opRun_set_loop_Shaped _ _ _ _ _ _ _ _ _ hs

/-- The decoder loop on the bytes of chunks within their ranges does what `decodeSteps`
does with the chunks. -/
theorem Decode_loop_steps (cfg : Config) (hw : cfg.Width ≠ 0) (ops : List chunk) :
    ∀ (s s1 : DecodeState), (∀ op ∈ ops, op.InRange) → decodeSteps cfg ops s = some s1 →
      ∀ (tail : List Byte) (fuel : Nat),
        Decode.loop cfg (ops.length + fuel) (ops.flatMap chunk.encode ++ tail)
            s.img s.cc s.previous s.x s.y
          = Decode.loop cfg fuel tail s1.img s1.cc s1.previous s1.x s1.y := by
  induction ops with
  | nil =>
    intro s s1 _ hs tail fuel
    simp only [decodeSteps, Option.some.injEq] at hs
    subst hs
    simp
  | cons op ops ih =>
    intro s s1 hin hs tail fuel
    simp only [decodeSteps] at hs
    split_ifs at hs with hy
    cases hset : op.set s.img s.x s.y s.cc s.previous with
    | error e => rw [hset] at hs; cases hs
    | ok res =>
      obtain ⟨n, previous1, img1⟩ := res
      rw [hset] at hs
      simp only at hs
      have hdc := decodeChunk_encode op (hin op (List.mem_cons_self _ _))
        (ops.flatMap chunk.encode ++ tail)
      have hlen : (op :: ops).length + fuel = (ops.length + fuel) + 1 := by
        simp only [List.length_cons]; omega
      rw [hlen]
      simp only [List.flatMap_cons, List.append_assoc]
      rw [Decode_loop_step cfg (ops.length + fuel) _ s.img s.cc s.previous s.x s.y hy hw op _ n
        previous1 img1 hdc hset]
      exact ih _ s1 (fun o ho => hin o (List.mem_cons_of_mem _ ho)) hs tail fuel

theorem decodeSteps_inv (cfg : Config) (hw : 0 < cfg.Width) (w h : Nat) (ops : List chunk) :
    ∀ (s s1 : DecodeState), decodeSteps cfg ops s = some s1 →
      s.img.Shaped w h → s.x < cfg.Width → s1.img.Shaped w h ∧ s1.x < cfg.Width := by
  induction ops with
  | nil =>
    intro s s1 hs h1 h2
    simp only [decodeSteps, Option.some.injEq] at hs
    subst hs
    exact ⟨h1, h2⟩
  | cons op ops ih =>
    intro s s1 hs h1 h2
    simp only [decodeSteps] at hs
    split_ifs at hs with hy
    cases hset : op.set s.img s.x s.y s.cc s.previous with
    | error e => rw [hset] at hs; cases hs
    | ok res =>
      obtain ⟨n, previous1, img1⟩ := res
      rw [hset] at hs
      simp only at hs
      exact ih _ s1 hs (chunk_set_Shaped op _ _ _ _ _ _ _ _ w h h1 hset) (Nat.mod_lt _ hw)

/-- The loop of `opRun.set` when the run does not fit: it stores into the groups that
remain and returns the loop counter, one more than the number of stores. -/
theorem opRun_set_loop_clip (c : NRGBA) (w h n y : Nat) (rem : Nat) :
    ∀ (i x : Nat) (img : NRGBAImage), img.Shaped w h → y * w + x ≤ w * h →
      w * h < y * w + x + rem →
      opRun.set.loop n y c rem i x img
        = (i + (w * h - (y * w + x)), img.fill c (w * h - (y * w + x)) (y * w + x)) := by
  induction rem with
  | zero => intro i x img _ h1 h2; omega
  | succ rem ih =>
    intro i x img hs h1 h2
    have hoff := img.PixOffset_eq w h x y hs
    have hlen := hs.2.2.2
    rcases Nat.eq_or_lt_of_le h1 with he | hlt
    · have hg : 4 * (y * w + x) + 4 > img.Pix.length := by omega
      simp only [opRun.set.loop, hoff, hg, if_true]
      rw [he, Nat.sub_self]
      rfl
    · have hng : ¬ (4 * (y * w + x) + 4 > img.Pix.length) := by omega
      simp only [opRun.set.loop, hoff, hng, if_false]
      rw [ih (i + 1) (x + 1) _ (img.store_Shaped _ c w h hs) (by omega) (by omega)]
      have e1 : w * h - (y * w + x) = (w * h - (y * w + (x + 1))) + 1 := by omega
      rw [e1, NRGBAImage.fill]
      congr 1
      omega

/-- C17. A stream with a valid header for `W ≥ 1`, `H ≥ 1`, then chunks that fill the
raster up to a position `(x, y)` inside it, then a Run chunk whose length exceeds the
number of pixels still missing, then the end marker, is decoded successfully: the missing
pixels are all set to the previous pixel, the pixels before them are kept, the buffer
keeps its length, and the excess of the run is ignored. -/
theorem lenient_final_run (W H : Nat) (hW : 1 ≤ W) (hH : 1 ≤ H) (hW32 : W < 4294967296)
    (hH32 : H < 4294967296) (ch cs : Byte) (ops : List chunk) (hops : ∀ op ∈ ops, op.InRange)
    (s : DecodeState)
    (hs : decodeSteps ⟨W, H⟩ ops ⟨NewNRGBA W H, colorCache.new, ⟨0, 0, 0, 255⟩, 0, 0⟩ = some s)
    (hy : s.y < H) (n : Byte) (hn : n.val ≤ 62) (hlong : W * H - (s.y * W + s.x) < n.val) :
    Decode (header.bytes W H ch cs ++ ops.flatMap chunk.encode ++ opRun.encode n ++ endMarker)
      = .ok (s.img.fill s.previous (W * H - (s.y * W + s.x)) (s.y * W + s.x)) ∧
    (s.img.fill s.previous (W * H - (s.y * W + s.x)) (s.y * W + s.x)).Pix.length
      = 4 * (W * H) ∧
    (∀ i, i < s.y * W + s.x →
      (s.img.fill s.previous (W * H - (s.y * W + s.x)) (s.y * W + s.x)).pixelAt i
        = s.img.pixelAt i) ∧
    (∀ i, s.y * W + s.x ≤ i → i < W * H →
      (s.img.fill s.previous (W * H - (s.y * W + s.x)) (s.y * W + s.x)).pixelAt i
        = s.previous) := by
  have hshape : (NewNRGBA W H).Shaped W H := by
    refine ⟨rfl, rfl, rfl, ?_⟩
    simp [NewNRGBA, Nat.mul_assoc]
  obtain ⟨hsh, hx⟩ := decodeSteps_inv ⟨W, H⟩ hW W H ops _ s hs hshape hW
  simp only at hx
  have hk : s.y * W + s.x < W * H := by
    calc s.y * W + s.x < s.y * W + W := by omega
      _ = (s.y + 1) * W := by rw [Nat.add_mul, Nat.one_mul]
      _ ≤ H * W := Nat.mul_le_mul_right W hy
      _ = W * H := Nat.mul_comm H W
  have hn1 : 1 ≤ n.val := by omega
  refine ⟨?_, ?_, ?_, ?_⟩
  · have hcfg := DecodeConfig_header W H hW32 hH32 ch cs
      (ops.flatMap chunk.encode ++ (opRun.encode n ++ endMarker))
    have hfuel : (ops.flatMap chunk.encode ++ (opRun.encode n ++ endMarker)).length + 1
        = ops.length + ((ops.flatMap chunk.encode ++ (opRun.encode n ++ endMarker)).length
            - ops.length + 1) := by
      have := flatMap_encode_length ops
      simp only [List.length_append] at this ⊢
      omega
    have hsteps := Decode_loop_steps ⟨W, H⟩ (Nat.pos_iff_ne_zero.mp hW) ops _ s hops hs
      (opRun.encode n ++ endMarker)
      ((ops.flatMap chunk.encode ++ (opRun.encode n ++ endMarker)).length - ops.length + 1)
    have hdc := decodeChunk_encode (.opRun n) ⟨hn1, hn⟩ endMarker
    have hset : chunk.set (.opRun n) s.img s.x s.y s.cc s.previous
        = .ok (1 + (W * H - (s.y * W + s.x)), s.previous,
            s.img.fill s.previous (W * H - (s.y * W + s.x)) (s.y * W + s.x)) := by
      simp only [chunk.set, opRun.set]
      rw [opRun_set_loop_clip s.previous W H n.val s.y n.val 1 s.x s.img hsh (Nat.le_of_lt hk)
        (by omega)]
    have hstep := Decode_loop_step ⟨W, H⟩
      ((ops.flatMap chunk.encode ++ (opRun.encode n ++ endMarker)).length - ops.length)
      (chunk.encode (.opRun n) ++ endMarker) s.img s.cc s.previous s.x s.y hy
      (Nat.pos_iff_ne_zero.mp hW) _ _ _ _ _ hdc hset
    have hdone : ¬ (s.y + (s.x + (1 + (W * H - (s.y * W + s.x)))) / W < H) := by
      have e : s.x + (1 + (W * H - (s.y * W + s.x))) + s.y * W = W * H + 1 := by omega
      have h2 : s.y + (s.x + (1 + (W * H - (s.y * W + s.x)))) / W = (W * H + 1) / W := by
        rw [← e, Nat.add_mul_div_right _ _ hW, Nat.add_comm]
      rw [h2, Nat.not_lt, Nat.le_div_iff_mul_le hW, Nat.mul_comm]
      omega
    simp only [Decode, List.append_assoc, hcfg]
    rw [hfuel, hsteps]
    simp only [chunk.encode] at hstep
    rw [hstep, Decode_loop_done _ _ _ _ _ _ _ _ hdone]
    simp [ReadFull, endMarker]
  · exact (NRGBAImage.fill_Shaped s.previous W H (W * H - (s.y * W + s.x)) s.img
      (s.y * W + s.x) hsh).2.2.2
  · intro i hi
    exact NRGBAImage.fill_pixelAt_out s.previous _ s.img _ i (Or.inl hi)
  · intro i h1 h2
    exact NRGBAImage.fill_pixelAt_in s.previous _ s.img _ i h1 (by omega)
      (by rw [hsh.2.2.2]; omega)

/-- Instance of C17: a 2 x 1 raster, one Diff chunk, then a run of 5 for the one missing
pixel. -/
theorem lenient_final_run_witness :
    Decode (header.bytes 2 1 4 0 ++ [chunk.opDiff (-1) (-1) (-1)].flatMap chunk.encode
        ++ opRun.encode 5 ++ endMarker)
      = .ok (((NewNRGBA 2 1).SetNRGBA 0 0 ⟨255, 255, 255, 255⟩).fill ⟨255, 255, 255, 255⟩
          (2 * 1 - (0 * 2 + 1)) (0 * 2 + 1)) :=
  (lenient_final_run 2 1 (by decide) (by decide) (by decide) (by decide) 4 0
    [.opDiff (-1) (-1) (-1)]
    (fun op h => by
      rw [List.mem_singleton] at h
      rw [h]
      exact ⟨⟨by decide, by decide⟩, ⟨by decide, by decide⟩, by decide, by decide⟩)
    ⟨(NewNRGBA 2 1).SetNRGBA 0 0 ⟨255, 255, 255, 255⟩,
      colorCache.new.add ⟨255, 255, 255, 255⟩, ⟨255, 255, 255, 255⟩, 1, 0⟩
    (by simp only [decodeSteps]; rfl) (by decide) 5 (by decide) (by decide)).1

end qoi
